import Mathlib

/-!
Verification of the OCR page-selection / normalization / comparison layer.

Shallow embedding of the repository code:
  * src/hartford_done/llm4nano.py   (_normalize_money, _compare_values, _qc_compare)
  * src/nationwide/qc_head.py       (_calculate_page_boundaries, find_pages_with_dollar_amounts,
                                     merge_page_ranges)
  * src/policy_additional_interests.py (_split_policy_combo_into_pages, _expand_neighbors)
  * src/encova/combine_extractions.py  (extract_pages_from_content, combine_extraction_files)

Python strings are modelled as `List Char`; Python regular-expression
scanning (re.finditer) is modelled by deterministic matchers for the exact
patterns the code compiles, scanned left to right without overlap, with the
greedy/backtracking behaviour of each concrete pattern worked out by hand
(each pattern is a concatenation of character runs, so backtracking only
shows up where a run of `\s*` must end in a mandatory newline).
-/

namespace Ocr

/-! ## Character-level utilities (Python string primitives) -/

/-- Python whitespace for `\s`, `str.strip()` and friends: space, tab,
newline, carriage return, vertical tab (11) and form feed (12). Non-ASCII
whitespace does not occur in any claim input. -/
def pyWs (c : Char) : Bool :=
  c = ' ' || c = '\t' || c = '\n' || c = '\r' || c.toNat = 11 || c.toNat = 12

/-- ASCII lower-casing of one character, Python `str.lower()` on ASCII. -/
def lowerChar (c : Char) : Char :=
  if 'A' ≤ c ∧ c ≤ 'Z' then Char.ofNat (c.toNat + 32) else c

/-- ASCII upper-casing of one character, Python `str.upper()` on ASCII. -/
def upperChar (c : Char) : Char :=
  if 'a' ≤ c ∧ c ≤ 'z' then Char.ofNat (c.toNat - 32) else c

def lowerList (cs : List Char) : List Char := cs.map lowerChar

def upperList (cs : List Char) : List Char := cs.map upperChar

/-- Python `str.strip()`: drop leading and trailing whitespace. -/
def trimWs (cs : List Char) : List Char :=
  ((cs.dropWhile pyWs).reverse.dropWhile pyWs).reverse

/-- Python `str.strip(chr)` for one character (used as `.strip("\n")`). -/
def trimChar (ch : Char) (cs : List Char) : List Char :=
  ((cs.dropWhile (· = ch)).reverse.dropWhile (· = ch)).reverse

/-- Python `int(...)` on a non-empty string of decimal digits. -/
def digitsToNat (ds : List Char) : Nat :=
  ds.foldl (fun acc c => 10 * acc + (c.toNat - 48)) 0

/-- Boolean prefix test on character lists. -/
def isPre : List Char → List Char → Bool
  | [], _ => true
  | _ :: _, [] => false
  | a :: as, b :: bs => a = b && isPre as bs

/-- Python substring containment `needle in haystack`. -/
def containsSubstr (needle : List Char) : List Char → Bool
  | [] => isPre needle []
  | c :: rest => isPre needle (c :: rest) || containsSubstr needle rest

/-- Python slice `s[a:b]` for `a ≤ b` within bounds (empty when `b ≤ a`,
exactly as in Python). -/
def pySlice (cs : List Char) (a b : Nat) : List Char :=
  (cs.drop a).take (b - a)

/-! ## JSON values

The certificate / policy records handled by `_qc_compare` are JSON objects
decoded by Python (dict / list / str / int / bool / None). `num` carries an
integer: no claim exercises float inputs. Python `bool` is a subtype of
`int`, which the embedding of `_normalize_money` respects. -/

inductive JValue where
  | null : JValue
  | bool (b : Bool) : JValue
  | num (n : Int) : JValue
  | str (s : List Char) : JValue
  | arr (xs : List JValue) : JValue
  | obj (fields : List (String × JValue)) : JValue

/-- Python `value is None` on a decoded JSON value. -/
def JValue.isNull : JValue → Bool
  | JValue.null => true
  | _ => false

/-- Python `dict.get(k)` on a JSON object: the first binding of the key, or
`None` (null) when absent. -/
def objGet (fields : List (String × JValue)) (k : String) : JValue :=
  match fields.find? (fun f => f.1 = k) with
  | some f => f.2
  | none => JValue.null

/-! ## src/hartford_done/llm4nano.py : _normalize_money -/

/-- String arm of `_normalize_money` (llm4nano.py lines 57-71): strip, empty
to None, case-insensitive "included" to the sentinel, percentages and
inside/outside splits verbatim, otherwise keep only the digit characters. -/
def normalize_money_str (s : List Char) : Option (List Char) :=
  let v := trimWs s
  if v = [] then none
  else if lowerList v = "included".data then some "Included".data
  else if v.getLast? = some '%' then some v
  else if containsSubstr "inside".data (lowerList v)
       || containsSubstr "outside".data (lowerList v) then some v
  else
    let digits := v.filter Char.isDigit
    if digits = [] then none else some digits

/-- Embedding of `_normalize_money` (llm4nano.py lines 45-71). The `bool`
case goes through the `isinstance(value, (int, float))` branch because a
Python bool is an int; `arr` and `obj` fail `isinstance(value, str)`. -/
def normalize_money : JValue → Option (List Char)
  | JValue.null => none
  | JValue.bool b => some (if b then "1".data else "0".data)
  | JValue.num n => some (toString n).data
  | JValue.str s => normalize_money_str s
  | JValue.arr _ => none
  | JValue.obj _ => none

/-- Embedding of `_compare_values` (llm4nano.py lines 74-75). -/
def compare_values (a b : JValue) : Bool :=
  normalize_money a = normalize_money b

/-! ## src/hartford_done/llm4nano.py : _qc_compare -/

/-- Python `str.isdigit()` on a path segment. -/
def isDigitKey (k : String) : Bool :=
  !k.data.isEmpty && k.data.all Char.isDigit

/-- Embedding of `resolve_path` inside `_qc_compare` (llm4nano.py lines
166-180): digit segments index lists (None when out of range or not a
list), other segments look keys up in dicts (None when missing or not a
dict). Resolution never raises. -/
def resolve_path (root : JValue) : List String → JValue
  | [] => root
  | k :: rest =>
    if isDigitKey k then
      match root with
      | JValue.arr xs =>
        if digitsToNat k.data < xs.length then
          resolve_path (xs.getD (digitsToNat k.data) JValue.null) rest
        else JValue.null
      | _ => JValue.null
    else
      match root with
      | JValue.obj fs => resolve_path (objGet fs k) rest
      | _ => JValue.null

/-- One record of the mismatches list: field label, normalized certificate
side, normalized policy side. -/
def MismatchRec := String × Option (List Char) × Option (List Char)

instance : DecidableEq MismatchRec := by
  unfold MismatchRec
  infer_instance

/-- The fixed field-path table of `_qc_compare` (llm4nano.py lines 90-155). -/
def qc_checks : List (String × List String × List String) :=
  [ ("property.policy_number",
      ["property", "policy_number"], ["property", "policy_number"]),
    ("property.effective_date",
      ["property", "effective_date"], ["property", "policy_period", "effective_date"]),
    ("property.expiration_date",
      ["property", "expiration_date"], ["property", "policy_period", "expiration_date"]),
    ("gl.policy_number",
      ["general_liability", "policy_number"], ["general_liability", "policy_number"]),
    ("gl.effective_date",
      ["general_liability", "effective_date"],
      ["general_liability", "policy_period", "effective_date"]),
    ("gl.expiration_date",
      ["general_liability", "expiration_date"],
      ["general_liability", "policy_period", "expiration_date"]),
    ("gl.limits.each_occurrence",
      ["general_liability", "limits", "each_occurrence"],
      ["general_liability", "limits", "each_occurrence"]),
    ("gl.limits.general_aggregate",
      ["general_liability", "limits", "general_aggregate"],
      ["general_liability", "limits", "general_aggregate"]),
    ("gl.limits.products_completed_operations_aggregate",
      ["general_liability", "limits", "products_completed_operations_aggregate"],
      ["general_liability", "limits", "products_completed_operations_aggregate"]),
    ("gl.limits.personal_advertising_injury",
      ["general_liability", "limits", "personal_advertising_injury"],
      ["general_liability", "limits", "personal_advertising_injury"]),
    ("gl.limits.damage_to_rented_premises",
      ["general_liability", "limits", "damage_to_rented_premises"],
      ["general_liability", "limits", "damage_to_rented_premises"]),
    ("gl.limits.medical_expense",
      ["general_liability", "limits", "medical_expense"],
      ["general_liability", "limits", "medical_expense"]),
    ("property.locations[0].business_personal_property",
      ["property", "locations", "0", "business_personal_property"],
      ["property", "locations", "0", "business_personal_property"]),
    ("property.locations[0].building",
      ["property", "locations", "0", "building"],
      ["property", "locations", "0", "building"]),
    ("property.locations[0].business_income",
      ["property", "locations", "0", "business_income"],
      ["property", "locations", "0", "business_income"]),
    ("property.locations[0].deductible",
      ["property", "locations", "0", "deductible"],
      ["property", "locations", "0", "deductible"]),
    ("policy.property.outdoor_signs_limit",
      ["property", "locations", "0", "outdoor_signs"],
      ["property", "outdoor_signs_limit"]),
    ("policy.property.windstorm_or_hail",
      ["property", "locations", "0", "windstorm_or_hail"],
      ["property", "windstorm_or_hail"]),
    ("policy.property.theft_sublimit",
      ["property", "locations", "0", "theft_sublimit"],
      ["property", "theft_sublimit"]) ]

/-- The per-field classification of the `_qc_compare` loop (llm4nano.py
lines 185-206): both sides None is skipped; exactly one None is a mismatch
carrying `_normalize_money(x) if x is not None else None` on each side;
both present and unequal under `_compare_values` is a mismatch with both
normalized values; otherwise no record. -/
def qc_field_record (certificate policy : JValue)
    (chk : String × List String × List String) : Option MismatchRec :=
  let cert_val := resolve_path certificate chk.2.1
  let pol_val := resolve_path policy chk.2.2
  if cert_val.isNull && pol_val.isNull then none
  else if cert_val.isNull || pol_val.isNull then
    some (chk.1,
      (if cert_val.isNull then none else normalize_money cert_val),
      (if pol_val.isNull then none else normalize_money pol_val))
  else if !(compare_values cert_val pol_val) then
    some (chk.1, normalize_money cert_val, normalize_money pol_val)
  else none

/-- The `cert_locations` lookup of `_qc_compare` (llm4nano.py lines 158-161):
`certificate.get("property", default empty dict) if isinstance(certificate, dict)
else empty dict`, then `.get("locations")`. Returns `none` when `cert_prop`
is not a dict, where the Python code would raise AttributeError. -/
def qc_cert_locations (certificate : JValue) : Option JValue :=
  let cert_prop : JValue :=
    match certificate with
    | JValue.obj fs =>
      match fs.find? (fun f => f.1 = "property") with
      | some f => f.2
      | none => JValue.obj []
    | _ => JValue.obj []
  match cert_prop with
  | JValue.obj fs => some (objGet fs "locations")
  | _ => none

/-- The check list actually walked by `_qc_compare` for a given certificate
(llm4nano.py lines 158-162): when the certificate has no non-empty
locations list, checks whose certificate path mentions "locations" are
dropped. -/
def qc_effective_checks (certificate : JValue) : Option (List (String × List String × List String)) :=
  match qc_cert_locations certificate with
  | none => none
  | some locs =>
    let keepAll : Bool := match locs with
      | JValue.arr xs => !xs.isEmpty
      | _ => false
    some (if keepAll then qc_checks
          else qc_checks.filter (fun c => !(c.2.1.contains "locations")))

/-- Embedding of `_qc_compare` (llm4nano.py lines 78-209). `none` models the
AttributeError raised when `certificate["property"]` exists but is not a
dict; otherwise the result carries the status string and the mismatches
list built by the loop (an append per check, i.e. a filterMap). -/
def qc_compare (certificate policy : JValue) : Option (String × List MismatchRec) :=
  match qc_effective_checks certificate with
  | none => none
  | some checks =>
    let mismatches := checks.filterMap (qc_field_record certificate policy)
    some ((if mismatches.isEmpty then "pass" else "needs_review"), mismatches)

/-! ## Claims C1, C2, C10 : normalizer and comparator -/

/-- C1. The ValueNormalizer equivalence table of the spec holds of
`_normalize_money`: the dollar-formatted, plain-string and integer forms of
1320000 all normalize to the digit string "1320000"; "Included" and
"INCLUDED" both give the sentinel "Included"; None and the empty string
give None; "5%" is returned unchanged; a string containing "inside" or
"outside" (case-insensitively) is returned verbatim after trimming; and
every other string is reduced to its digit characters, or None when no
digit remains. -/
theorem normalize_money_equivalence_table :
    normalize_money (JValue.str "$1,320,000".data) = some "1320000".data ∧
    normalize_money (JValue.str "1320000".data) = some "1320000".data ∧
    normalize_money (JValue.num 1320000) = some "1320000".data ∧
    normalize_money (JValue.str "Included".data) = some "Included".data ∧
    normalize_money (JValue.str "INCLUDED".data) = some "Included".data ∧
    normalize_money JValue.null = none ∧
    normalize_money (JValue.str "".data) = none ∧
    normalize_money (JValue.str "5%".data) = some "5%".data ∧
    normalize_money (JValue.str "Inside $10,000 / Outside $10,000".data)
      = some "Inside $10,000 / Outside $10,000".data ∧
    ∀ s : List Char,
      trimWs s ≠ [] →
      lowerList (trimWs s) ≠ "included".data →
      (trimWs s).getLast? ≠ some '%' →
      containsSubstr "inside".data (lowerList (trimWs s)) = false →
      containsSubstr "outside".data (lowerList (trimWs s)) = false →
      normalize_money (JValue.str s) =
        (if (trimWs s).filter Char.isDigit = [] then none
         else some ((trimWs s).filter Char.isDigit)) := by
  refine ⟨by decide, by decide, by decide, by decide, by decide, rfl, by decide, by decide,
    by decide, ?_⟩
  intro s h1 h2 h3 h4 h5
  simp only [normalize_money, normalize_money_str, h4, h5, if_neg h1, if_neg h2, if_neg h3,
    Bool.or_self, Bool.false_eq_true, if_false]

/-- Witness for C1: the fall-through digit-stripping clause evaluated at the
concrete input " ab1.2c ", whose digits are "12". -/
theorem normalize_money_equivalence_table_witness :
    normalize_money (JValue.str " ab1.2c ".data) = some "12".data := by
  have h := normalize_money_equivalence_table.2.2.2.2.2.2.2.2.2
  rw [h " ab1.2c ".data (by decide) (by decide) (by decide) (by decide) (by decide)]
  decide

/-- C2. Asymmetric presence is always surfaced: for every field-path in the
check list `_qc_compare` actually walks, if exactly one of the two resolved
values is null, a mismatch record for that field is in the produced
mismatches list, carrying the normalized value on the non-null side and
None on the null side. -/
theorem qc_compare_asymmetric_presence_mismatch
    (certificate policy : JValue) (f : String) (cp pp : List String)
    (hch : ∃ cs, qc_effective_checks certificate = some cs ∧ (f, cp, pp) ∈ cs)
    (hone : (resolve_path certificate cp).isNull ≠ (resolve_path policy pp).isNull) :
    ∃ status mismatches, qc_compare certificate policy = some (status, mismatches) ∧
      (f,
       (if (resolve_path certificate cp).isNull then none
        else normalize_money (resolve_path certificate cp)),
       (if (resolve_path policy pp).isNull then none
        else normalize_money (resolve_path policy pp))) ∈ mismatches := by
  obtain ⟨cs, hcs, hmem⟩ := hch
  have hrec : qc_field_record certificate policy (f, cp, pp) =
      some (f,
       (if (resolve_path certificate cp).isNull then none
        else normalize_money (resolve_path certificate cp)),
       (if (resolve_path policy pp).isNull then none
        else normalize_money (resolve_path policy pp))) := by
    unfold qc_field_record
    cases hc : (resolve_path certificate cp).isNull <;>
      cases hp : (resolve_path policy pp).isNull <;>
      simp_all
  refine ⟨(if (cs.filterMap (qc_field_record certificate policy)).isEmpty
             then "pass" else "needs_review"),
          cs.filterMap (qc_field_record certificate policy), ?_, ?_⟩
  · unfold qc_compare
    rw [hcs]
  · exact List.mem_filterMap.mpr ⟨(f, cp, pp), hmem, hrec⟩

/-- Witness for C2: a certificate stating property.policy_number
"1,000,000" against an empty policy object produces the mismatch record
(certificate side "1000000", policy side None). -/
theorem qc_compare_asymmetric_presence_mismatch_witness :
    ∃ status mismatches,
      qc_compare
        (JValue.obj [("property", JValue.obj [("policy_number", JValue.str "1,000,000".data)])])
        (JValue.obj []) = some (status, mismatches) ∧
      ("property.policy_number", some "1000000".data, none) ∈ mismatches := by
  have h := qc_compare_asymmetric_presence_mismatch
    (JValue.obj [("property", JValue.obj [("policy_number", JValue.str "1,000,000".data)])])
    (JValue.obj []) "property.policy_number" ["property", "policy_number"]
    ["property", "policy_number"] ⟨_, rfl, by decide⟩ (by decide)
  simpa using h

/-- C10. Two strings that are non-empty after trimming, contain no digit,
are not "included" up to case, do not end in a percent sign and contain
neither "inside" nor "outside" both normalize to None; consequently
`_compare_values` holds between them and the `_qc_compare` loop emits no
record for a field where the certificate resolves to the one and the
policy to the other. -/
theorem qc_compare_skips_nondigit_text_pairs
    (a b : List Char)
    (ha1 : trimWs a ≠ []) (ha2 : (trimWs a).all (fun c => !c.isDigit))
    (ha3 : lowerList (trimWs a) ≠ "included".data)
    (ha4 : (trimWs a).getLast? ≠ some '%')
    (ha5 : containsSubstr "inside".data (lowerList (trimWs a)) = false)
    (ha6 : containsSubstr "outside".data (lowerList (trimWs a)) = false)
    (hb1 : trimWs b ≠ []) (hb2 : (trimWs b).all (fun c => !c.isDigit))
    (hb3 : lowerList (trimWs b) ≠ "included".data)
    (hb4 : (trimWs b).getLast? ≠ some '%')
    (hb5 : containsSubstr "inside".data (lowerList (trimWs b)) = false)
    (hb6 : containsSubstr "outside".data (lowerList (trimWs b)) = false) :
    normalize_money (JValue.str a) = none ∧
    normalize_money (JValue.str b) = none ∧
    compare_values (JValue.str a) (JValue.str b) = true ∧
    ∀ (certificate policy : JValue) (f : String) (cp pp : List String),
      resolve_path certificate cp = JValue.str a →
      resolve_path policy pp = JValue.str b →
      qc_field_record certificate policy (f, cp, pp) = none := by
  have hfa : (trimWs a).filter Char.isDigit = [] := by
    simp only [List.filter_eq_nil_iff]
    intro c hc
    simpa using List.all_eq_true.mp ha2 c hc
  have hfb : (trimWs b).filter Char.isDigit = [] := by
    simp only [List.filter_eq_nil_iff]
    intro c hc
    simpa using List.all_eq_true.mp hb2 c hc
  have hna : normalize_money (JValue.str a) = none := by
    simp only [normalize_money, normalize_money_str, ha5, ha6, if_neg ha1, if_neg ha3,
      if_neg ha4, Bool.or_self, Bool.false_eq_true, if_false, hfa]
    simp
  have hnb : normalize_money (JValue.str b) = none := by
    simp only [normalize_money, normalize_money_str, hb5, hb6, if_neg hb1, if_neg hb3,
      if_neg hb4, Bool.or_self, Bool.false_eq_true, if_false, hfb]
    simp
  refine ⟨hna, hnb, ?_, ?_⟩
  · simp [compare_values, hna, hnb]
  · intro certificate policy f cp pp hcp hpp
    unfold qc_field_record
    simp only [hcp, hpp, JValue.isNull, Bool.and_self, Bool.false_and, Bool.or_self,
      compare_values, hna, hnb]
    simp

/-- Witness for C10: the strings "N/A" and "TBD" both normalize to None,
compare as equal, and produce no record for a field that resolves to them
on the two sides. -/
theorem qc_compare_skips_nondigit_text_pairs_witness :
    compare_values (JValue.str "N/A".data) (JValue.str "TBD".data) = true ∧
    qc_field_record (JValue.obj [("x", JValue.str "N/A".data)])
      (JValue.obj [("y", JValue.str "TBD".data)]) ("f", ["x"], ["y"]) = none := by
  have h := qc_compare_skips_nondigit_text_pairs "N/A".data "TBD".data
    (by decide) (by decide) (by decide) (by decide) (by decide) (by decide)
    (by decide) (by decide) (by decide) (by decide) (by decide) (by decide)
  exact ⟨h.2.2.1, h.2.2.2 _ _ "f" ["x"] ["y"] rfl rfl⟩

/-! ## Regular-expression matchers

Each Python pattern the page splitters compile is embedded as a
deterministic matcher `List Char → Option (consumed length × captured
digits)` operating at the head of its input. Greediness is resolved by
hand per pattern: a run `\s*` that must be followed by a literal `\n`
and then a non-whitespace character matches a whole whitespace run whose
last character is a newline, while a trailing `\s*\n` (nothing after it)
consumes a whitespace run up to and including its last newline. -/

/-- Case-insensitive literal match (re.IGNORECASE); returns the rest after
the literal. -/
def matchLitCI : List Char → List Char → Option (List Char)
  | [], rest => some rest
  | _ :: _, [] => none
  | l :: ls, c :: rest => if upperChar c = upperChar l then matchLitCI ls rest else none

/-- Length of the prefix of a whitespace run up to and including its last
newline, or none when it contains no newline (the backtracking result of a
trailing `\s*\n`). -/
def uptoLastNl (w : List Char) : Option Nat :=
  if '\n' ∈ w then some (w.length - (w.reverse.takeWhile (fun c => c != '\n')).length)
  else none

/-- Pattern `={50,}\s*\nPAGE\s+(\d+)\s*\n={50,}` with IGNORECASE
(qc_head.py patterns 1 and 4; combine_extractions.py pattern 1). The two
inner `\s*\n` groups must each end the whitespace run on a newline because
the following character (P or =) is not whitespace. -/
def matchPageEq (cs : List Char) : Option (Nat × List Char) :=
  let e1 := cs.takeWhile (fun c => c = '=')
  if e1.length < 50 then none else
  let r1 := cs.dropWhile (fun c => c = '=')
  let w1 := r1.takeWhile pyWs
  if w1.getLast? ≠ some '\n' then none else
  match matchLitCI "PAGE".data (r1.dropWhile pyWs) with
  | none => none
  | some r3 =>
    let w2 := r3.takeWhile pyWs
    if w2.isEmpty then none else
    let r4 := r3.dropWhile pyWs
    let d := r4.takeWhile Char.isDigit
    if d.isEmpty then none else
    let r5 := r4.dropWhile Char.isDigit
    let w3 := r5.takeWhile pyWs
    if w3.getLast? ≠ some '\n' then none else
    let r6 := r5.dropWhile pyWs
    let e2 := r6.takeWhile (fun c => c = '=')
    if e2.length < 50 then none else
    some (e1.length + w1.length + 4 + w2.length + d.length + w3.length + e2.length, d)

/-- Pattern `={50,}\s*\nPAGE\s+(\d+)\s*\n` with IGNORECASE (qc_head.py
pattern 2). The trailing `\s*\n` consumes up to the last newline of the
whitespace run after the digits. -/
def matchPageEqOpen (cs : List Char) : Option (Nat × List Char) :=
  let e1 := cs.takeWhile (fun c => c = '=')
  if e1.length < 50 then none else
  let r1 := cs.dropWhile (fun c => c = '=')
  let w1 := r1.takeWhile pyWs
  if w1.getLast? ≠ some '\n' then none else
  match matchLitCI "PAGE".data (r1.dropWhile pyWs) with
  | none => none
  | some r3 =>
    let w2 := r3.takeWhile pyWs
    if w2.isEmpty then none else
    let r4 := r3.dropWhile pyWs
    let d := r4.takeWhile Char.isDigit
    if d.isEmpty then none else
    let r5 := r4.dropWhile Char.isDigit
    match uptoLastNl (r5.takeWhile pyWs) with
    | none => none
    | some k => some (e1.length + w1.length + 4 + w2.length + d.length + k, d)

/-- Pattern `\nPAGE\s+(\d+)\s*\n` with IGNORECASE (qc_head.py pattern 3;
combine_extractions.py fallback). -/
def matchNlPage (cs : List Char) : Option (Nat × List Char) :=
  match cs with
  | '\n' :: r1 =>
    (match matchLitCI "PAGE".data r1 with
     | none => none
     | some r3 =>
       let w2 := r3.takeWhile pyWs
       if w2.isEmpty then none else
       let r4 := r3.dropWhile pyWs
       let d := r4.takeWhile Char.isDigit
       if d.isEmpty then none else
       let r5 := r4.dropWhile Char.isDigit
       match uptoLastNl (r5.takeWhile pyWs) with
       | none => none
       | some k => some (1 + 4 + w2.length + d.length + k, d))
  | _ => none

/-- Pattern `PAGE\s+(\d+)` with IGNORECASE (qc_head.py last-chance
fallback). -/
def matchPageBare (cs : List Char) : Option (Nat × List Char) :=
  match matchLitCI "PAGE".data cs with
  | none => none
  | some r3 =>
    let w2 := r3.takeWhile pyWs
    if w2.isEmpty then none else
    let r4 := r3.dropWhile pyWs
    let d := r4.takeWhile Char.isDigit
    if d.isEmpty then none else
    some (4 + w2.length + d.length, d)

/-- Pattern `={50,}\s*\n\[Match\s+\d+\]\s+Page\s+(\d+)\s*\n={50,}` with
IGNORECASE (combine_extractions.py pattern 2). -/
def matchBracketPage (cs : List Char) : Option (Nat × List Char) :=
  let e1 := cs.takeWhile (fun c => c = '=')
  if e1.length < 50 then none else
  let r1 := cs.dropWhile (fun c => c = '=')
  let w1 := r1.takeWhile pyWs
  if w1.getLast? ≠ some '\n' then none else
  match r1.dropWhile pyWs with
  | '[' :: r2 =>
    (match matchLitCI "Match".data r2 with
     | none => none
     | some r3 =>
       let wA := r3.takeWhile pyWs
       if wA.isEmpty then none else
       let r4 := r3.dropWhile pyWs
       let dA := r4.takeWhile Char.isDigit
       if dA.isEmpty then none else
       match r4.dropWhile Char.isDigit with
       | ']' :: r5 =>
         let wB := r5.takeWhile pyWs
         if wB.isEmpty then none else
         (match matchLitCI "Page".data (r5.dropWhile pyWs) with
          | none => none
          | some r6 =>
            let wC := r6.takeWhile pyWs
            if wC.isEmpty then none else
            let r7 := r6.dropWhile pyWs
            let d := r7.takeWhile Char.isDigit
            if d.isEmpty then none else
            let r8 := r7.dropWhile Char.isDigit
            let w3 := r8.takeWhile pyWs
            if w3.getLast? ≠ some '\n' then none else
            let r9 := r8.dropWhile pyWs
            let e2 := r9.takeWhile (fun c => c = '=')
            if e2.length < 50 then none else
            some (e1.length + w1.length + 1 + 5 + wA.length + dA.length + 1
                  + wB.length + 4 + wC.length + d.length + w3.length + e2.length, d))
       | _ => none)
  | _ => none

/-- Pattern `^={40,}\nPAGE\s+(\d+)\n={40,}\n`, MULTILINE, case-sensitive
(policy_additional_interests.py and pl_cov_additional_interests.py). Only
tried at the beginning of a line; the exact newlines leave no backtracking
freedom. -/
def matchPolicyMarker (cs : List Char) : Option (Nat × List Char) :=
  let e1 := cs.takeWhile (fun c => c = '=')
  if e1.length < 40 then none else
  match cs.drop e1.length with
  | '\n' :: r1 =>
    (match r1 with
     | 'P' :: 'A' :: 'G' :: 'E' :: r2 =>
       let w2 := r2.takeWhile pyWs
       if w2.isEmpty then none else
       let r3 := r2.dropWhile pyWs
       let d := r3.takeWhile Char.isDigit
       if d.isEmpty then none else
       (match r3.dropWhile Char.isDigit with
        | '\n' :: r4 =>
          let e2 := r4.takeWhile (fun c => c = '=')
          if e2.length < 40 then none else
          (match r4.drop e2.length with
           | '\n' :: _ =>
             some (e1.length + 1 + 4 + w2.length + d.length + 1 + e2.length + 1, d)
           | _ => none)
        | _ => none)
     | _ => none)
  | _ => none

/-- Pattern `\$\s*([0-9,]+)` (qc_head.py find_pages_with_dollar_amounts). -/
def matchDollarAmount (cs : List Char) : Option (Nat × List Char) :=
  match cs with
  | '$' :: rest =>
    let w := rest.takeWhile pyWs
    let r := rest.dropWhile pyWs
    let d := r.takeWhile (fun c => c.isDigit || c = ',')
    if d.isEmpty then none else some (1 + w.length + d.length, d)
  | _ => none

/-! ## Left-to-right non-overlapping scan (re.finditer) -/

/-- Scan core: at each position try the matcher; on success record
(start, end, captured) and resume at the match end (finditer yields
non-overlapping matches left to right); on failure advance one character.
The matchers above never succeed with a zero-length match; the `k = 0`
branch mirrors how finditer would advance past an empty match. Fuel is one
unit per step, and every step strictly shortens the text, so the initial
fuel `length` suffices. -/
def scanAux {α : Type} (m : List Char → Option (Nat × α)) :
    Nat → Nat → List Char → List (Nat × Nat × α)
  | 0, _, _ => []
  | _ + 1, _, [] => []
  | fuel + 1, pos, c :: rest =>
    match m (c :: rest) with
    | none => scanAux m fuel (pos + 1) rest
    | some (k, v) =>
      if k = 0 then scanAux m fuel (pos + 1) rest
      else (pos, pos + k, v) :: scanAux m fuel (pos + k) ((c :: rest).drop k)

/-- All matches of a matcher over a text (re.finditer). -/
def scanAll {α : Type} (m : List Char → Option (Nat × α)) (cs : List Char) :
    List (Nat × Nat × α) :=
  scanAux m cs.length 0 cs

/-- Scan core for a `^`-anchored MULTILINE pattern: the matcher is tried
only at the start of the text or just after a newline. -/
def scanAuxBol {α : Type} (m : List Char → Option (Nat × α)) :
    Nat → Nat → Bool → List Char → List (Nat × Nat × α)
  | 0, _, _, _ => []
  | _ + 1, _, _, [] => []
  | fuel + 1, pos, bol, c :: rest =>
    match (if bol then m (c :: rest) else none) with
    | none => scanAuxBol m fuel (pos + 1) (c = '\n') rest
    | some (k, v) =>
      if k = 0 then scanAuxBol m fuel (pos + 1) (c = '\n') rest
      else (pos, pos + k, v) ::
        scanAuxBol m fuel (pos + k) (((c :: rest).take k).getLast? == some '\n')
          ((c :: rest).drop k)

/-- All matches of an anchored matcher (re.finditer with `^` in MULTILINE
mode). -/
def scanBol {α : Type} (m : List Char → Option (Nat × α)) (cs : List Char) :
    List (Nat × Nat × α) :=
  scanAuxBol m cs.length 0 true cs

/-! ## src/nationwide/qc_head.py : _calculate_page_boundaries -/

/-- The pattern-selection loop of `_calculate_page_boundaries` (qc_head.py
lines 68-95): patterns are tried in order and the first one with at least
one match wins; the source's pattern 4 (`Page` instead of `PAGE`) is the
same regular expression as pattern 1 under IGNORECASE, so it is embedded
by the same matcher; last comes the bare `PAGE\s+(\d+)` fallback. -/
def qc_marker_matches (text : List Char) : List (Nat × Nat × List Char) :=
  let m1 := scanAll matchPageEq text
  if !m1.isEmpty then m1 else
  let m2 := scanAll matchPageEqOpen text
  if !m2.isEmpty then m2 else
  let m3 := scanAll matchNlPage text
  if !m3.isEmpty then m3 else
  let m4 := scanAll matchPageEq text
  if !m4.isEmpty then m4 else
  scanAll matchPageBare text

/-- Page records from the marker matches (qc_head.py lines 100-115): the
page number is `int` of the captured digits (always parseable, so the
try/except never skips), the content starts at the match end and stops at
the next match start, or at end of document for the last match. -/
def pageRecords (len : Nat) : List (Nat × Nat × List Char) → List (Nat × Nat × Nat)
  | [] => []
  | [(_, e, d)] => [(digitsToNat d, e, len)]
  | (_, e, d) :: m2 :: ms => (digitsToNat d, e, m2.1) :: pageRecords len (m2 :: ms)

/-- Dictionary lookup on the insertion-ordered boundaries association list. -/
def lookupB (b : List (Nat × Nat × Nat)) (p : Nat) : Option (Nat × Nat) :=
  match b.find? (fun r => r.1 = p) with
  | some r => some r.2
  | none => none

/-- In-place dictionary update at a key (keeps the insertion position). -/
def updateB (b : List (Nat × Nat × Nat)) (p : Nat) (v : Nat × Nat) : List (Nat × Nat × Nat) :=
  b.map (fun r => if r.1 = p then (p, v) else r)

/-- The duplicate-page handling of `_calculate_page_boundaries` (qc_head.py
lines 117-124): a new page number is appended; a repeated page number
keeps the first occurrence's start and extends the recorded end when the
new end is larger, otherwise leaves the record untouched. -/
def insertBoundary (b : List (Nat × Nat × Nat)) (r : Nat × Nat × Nat) : List (Nat × Nat × Nat) :=
  match lookupB b r.1 with
  | none => b ++ [r]
  | some (s0, e0) => if e0 < r.2.2 then updateB b r.1 (s0, r.2.2) else b

/-- Python `sorted(boundaries.items(), key=lambda x: x[1][0])`. -/
def sortByStart (b : List (Nat × Nat × Nat)) : List (Nat × Nat × Nat) :=
  List.insertionSort (fun x y => x.2.1 ≤ y.2.1) b

/-- The overlap-resolution pass of `_calculate_page_boundaries` (qc_head.py
lines 126-136): walk the snapshot sorted by start; whenever a record's end
exceeds the next record's start, clip that record's end down to it in the
dictionary. -/
def clipOverlaps (sortedB : List (Nat × Nat × Nat)) (b : List (Nat × Nat × Nat)) :
    List (Nat × Nat × Nat) :=
  (sortedB.zip sortedB.tail).foldl
    (fun acc pr => if pr.2.2.1 < pr.1.2.2 then updateB acc pr.1.1 (pr.1.2.1, pr.2.2.1) else acc) b

/-- Embedding of `_calculate_page_boundaries` (qc_head.py lines 65-138):
the result is the boundaries dictionary in insertion order, each entry
(page number, span start, span end). With no match anywhere, the last
resort records the whole document as page 1. -/
def calculate_page_boundaries (text : List Char) : List (Nat × Nat × Nat) :=
  let ms := qc_marker_matches text
  if ms.isEmpty then [(1, 0, text.length)]
  else
    let b := (pageRecords text.length ms).foldl insertBoundary []
    clipOverlaps (sortByStart b) b

/-! ## src/nationwide/qc_head.py : find_pages_with_dollar_amounts -/

/-- The skip list of instructional markers (qc_head.py line 237). -/
def skip_patterns : List (List Char) :=
  ["EXAMPLE".data, "CALCULATION".data, "HOW TO".data, "SAMPLE".data, "ILLUSTRATION".data]

/-- Python `int(match.group(1).replace(",", ""))`: None when the token had
only commas (the ValueError branch of the source). -/
def parse_dollar_amount (d : List Char) : Option Nat :=
  let ds := d.filter (fun c => c != ',')
  if ds.isEmpty then none else some (digitsToNat ds)

/-- Page skip test: `any(skip in page_text_upper for skip in skip_patterns)`. -/
def page_is_instructional (t : List Char) : Bool :=
  skip_patterns.any (fun p => containsSubstr p (upperList t))

/-- The inner loop over `re.finditer(r'\$\s*([0-9,]+)', page_text)` with its
break: the page has some dollar token parsing to at least 200. -/
def page_has_big_amount (t : List Char) : Bool :=
  (scanAll matchDollarAmount t).any (fun m =>
    match parse_dollar_amount m.2.2 with
    | some a => 200 ≤ a
    | none => false)

/-- Embedding of `find_pages_with_dollar_amounts` (qc_head.py lines
225-266): collect pages whose text is not instructional and contains a
dollar amount of at least 200, as a sorted set. -/
def find_pages_with_dollar_amounts (text : List Char) : List Nat :=
  let qualifying := (calculate_page_boundaries text).filterMap (fun r =>
    let page_text := pySlice text r.2.1 r.2.2
    if page_is_instructional page_text then none
    else if page_has_big_amount page_text then some r.1 else none)
  List.insertionSort (fun x y => x ≤ y) qualifying.dedup

/-! ## src/nationwide/qc_head.py : merge_page_ranges -/

/-- The merge loop of `merge_page_ranges` (qc_head.py lines 297-305), with
the accumulator kept reversed so the Python `merged[-1]` is the head: an
incoming range whose start is at most one past the last end extends the
last range (its end becoming the max), otherwise it opens a new range. -/
def mergeRangesLoop : List (Nat × Nat) → List (Nat × Nat) → List (Nat × Nat)
  | acc, [] => acc.reverse
  | [], r :: rest => mergeRangesLoop [r] rest
  | (ls, le) :: accT, (s, e) :: rest =>
    if s ≤ le + 1 then mergeRangesLoop ((ls, max le e) :: accT) rest
    else mergeRangesLoop ((s, e) :: (ls, le) :: accT) rest

/-- Python `all_pages[0] if all_pages else 1` over the sorted page keys
(qc_head.py lines 283-285). -/
def doc_min_page (docPages : List Nat) : Nat :=
  (List.insertionSort (fun x y => x ≤ y) docPages).headD 1

/-- Python `all_pages[-1] if all_pages else 1` over the sorted page keys
(qc_head.py lines 283-286). -/
def doc_max_page (docPages : List Nat) : Nat :=
  (List.insertionSort (fun x y => x ≤ y) docPages).getLastD 1

/-- Embedding of `merge_page_ranges` (qc_head.py lines 268-307).
`docPages` stands for `self.page_boundaries.keys()`. Arithmetic is on Nat:
Python computes `max(min_page, page - buffer)` over integers, and since
`min_page ≥ 0`, truncated Nat subtraction gives the same value. -/
def merge_page_ranges (docPages : List Nat) (pages : List Nat) (buffer : Nat) :
    List (Nat × Nat) :=
  if pages.isEmpty then []
  else
    let min_page := doc_min_page docPages
    let max_page := doc_max_page docPages
    let ranges := pages.map (fun p => (max min_page (p - buffer), min max_page (p + buffer)))
    let sortedR := List.insertionSort (fun x y => x.1 ≤ y.1) ranges
    mergeRangesLoop [] sortedR

instance : IsTotal (Nat × Nat) (fun x y => x.1 ≤ y.1) :=
  ⟨fun a b => Nat.le_total a.1 b.1⟩

instance : IsTrans (Nat × Nat) (fun x y => x.1 ≤ y.1) :=
  ⟨fun _ _ _ h1 h2 => Nat.le_trans h1 h2⟩

/-! ## src/policy_additional_interests.py : page splitting and expansion -/

/-- Python `text.replace("\r\n", "\n")`: left-to-right non-overlapping
replacement. -/
def replaceCrlf : List Char → List Char
  | '\r' :: '\n' :: rest => '\n' :: replaceCrlf rest
  | c :: rest => c :: replaceCrlf rest
  | [] => []

/-- The newline normalization of `_split_policy_combo_into_pages`:
`.replace("\r\n", "\n").replace("\r", "\n")`. -/
def normalize_newlines (cs : List Char) : List Char :=
  (replaceCrlf cs).map (fun c => if c = '\r' then '\n' else c)

/-- One page of the policy combo file. -/
structure PolicyPage where
  page_number : Nat
  text : List Char
deriving DecidableEq

/-- Chunk spans for `_split_policy_combo_into_pages`: each chunk runs from
its own marker start (the marker is kept inside the chunk) to the next
marker start, or to the end of the text. -/
def policyChunks (len : Nat) : List (Nat × Nat × List Char) → List (Nat × Nat × List Char)
  | [] => []
  | [(s, _, d)] => [(s, len, d)]
  | (s, _, d) :: m2 :: ms => (s, m2.1, d) :: policyChunks len (m2 :: ms)

/-- Embedding of `_split_policy_combo_into_pages`
(policy_additional_interests.py lines 65-90; the identical copy in
pl_cov_additional_interests.py lines 21-38 returns dicts instead of the
dataclass): normalize newlines, find the anchored markers, fall back to a
single page numbered 0 holding the whole text, otherwise cut chunks at
marker starts and strip newlines around each chunk. -/
def split_policy_combo_into_pages (policy_text : List Char) : List PolicyPage :=
  let text := normalize_newlines policy_text
  let ms := scanBol matchPolicyMarker text
  if ms.isEmpty then [⟨0, text⟩]
  else
    (policyChunks text.length ms).map (fun r =>
      ⟨digitsToNat r.2.2, trimChar '\n' (pySlice text r.1 r.2.1)⟩)

/-- Embedding of `_expand_neighbors` (policy_additional_interests.py lines
112-120 and pl_cov_additional_interests.py lines 50-59): add every page
within the radius around each page, then keep the non-negative ones,
sorted. Page numbers are Int exactly as in Python, so subtraction can go
below zero before the filter. -/
def expand_neighbors (page_nums : List Int) (radius : Nat) : List Int :=
  if radius = 0 then List.insertionSort (fun x y => x ≤ y) page_nums.dedup
  else
    let s := page_nums.dedup
    let expanded := s ++ s.flatMap (fun n =>
      (List.range radius).flatMap (fun i => [n - (i + 1), n + (i + 1)]))
    List.insertionSort (fun x y => x ≤ y) (expanded.dedup.filter (fun x => decide (0 ≤ x)))

/-! ## src/encova/combine_extractions.py -/

/-- The page-collection loop of `extract_pages_from_content`
(combine_extractions.py lines 45-62): walk the position-sorted markers,
skip a page number already seen, and otherwise record the stripped text
from this marker's end to the next marker's start (end of file for the
last marker). -/
def extractLoop (len : Nat) (content : List Char) :
    List (Nat × Nat × List Char) → List Nat → List (Nat × List Char)
  | [], _ => []
  | (_, e, d) :: ms, seen =>
    let p := digitsToNat d
    if seen.contains p then extractLoop len content ms seen
    else
      let pageEnd := match ms with
        | [] => len
        | m2 :: _ => m2.1
      (p, trimWs (pySlice content e pageEnd)) :: extractLoop len content ms (p :: seen)

/-- Embedding of `extract_pages_from_content` (combine_extractions.py lines
13-64): run the two primary marker patterns, fall back to the simple
newline pattern when both found nothing, return a single page 1 holding
the whole content when there is still no marker, and otherwise collect
pages from the markers sorted by position. -/
def extract_pages_from_content (content : List Char) : List (Nat × List Char) :=
  let primary := scanAll matchPageEq content ++ scanAll matchBracketPage content
  let allm := if primary.isEmpty then scanAll matchNlPage content else primary
  if allm.isEmpty then [(1, content)]
  else
    extractLoop content.length content
      (List.insertionSort (fun x y => x.1 ≤ y.1) allm) []

/-- Python dict built by comprehension over the extracted pages: a repeated
key keeps the last value. -/
def pageDict (pages : List (Nat × List Char)) (n : Nat) : Option (List Char) :=
  match pages.reverse.find? (fun pr => pr.1 = n) with
  | some pr => some pr.2
  | none => none

/-- Python `sorted(set(xs + ys))`. -/
def sorted_union (xs ys : List Nat) : List Nat :=
  List.insertionSort (fun x y => x ≤ y) (xs ++ ys).dedup

/-- The per-page block of the interleaving mode of
`combine_extraction_files` (combine_extractions.py lines 152-180), as the
exact list of lines appended for one page number: header, then the
Tesseract section (content, or the explicit not-found marker), then the
PyMuPDF section likewise. -/
def pageBlock (tdict pdict : Nat → Option (List Char)) (n : Nat) : List (List Char) :=
  [List.replicate 80 '=', "PAGE ".data ++ (toString n).data, List.replicate 80 '=', []] ++
  ["--- TESSERACT (Buffer=1) ---".data] ++
  (match tdict n with
   | some c => [[], c, []]
   | none => ["[Page not found in Tesseract extraction]".data, []]) ++
  ["--- PYMUPDF (Buffer=0) ---".data] ++
  (match pdict n with
   | some c => [[], c, []]
   | none => ["[Page not found in PyMuPDF extraction]".data, []]) ++
  [[]]

/-- The page-by-page interleave of `combine_extraction_files`
(combine_extractions.py lines 133-181): one block per page number of the
sorted union of the two page maps. -/
def interleave_blocks (tpages ppages : List (Nat × List Char)) :
    List (Nat × List (List Char)) :=
  (sorted_union (tpages.map Prod.fst) (ppages.map Prod.fst)).map
    (fun n => (n, pageBlock (pageDict tpages) (pageDict ppages) n))

/-- Interleaving mode of `combine_extraction_files` applied to two raw
extraction texts: split each, then emit the blocks in page order. -/
def combine_extractions_interleaved (tesseract_content pymupdf_content : List Char) :
    List (Nat × List (List Char)) :=
  interleave_blocks (extract_pages_from_content tesseract_content)
    (extract_pages_from_content pymupdf_content)

/-! ## Claim C8 : markerless input degrades to a single page -/

/-- C8. The splitters are total functions of the input text (no exception
is possible in the embedding), and on markerless input the last-resort
rule fires: `_calculate_page_boundaries` records the whole document as
page 1, and `_split_policy_combo_into_pages` returns a single page
numbered 0 whose text is the entire (newline-normalized) input. -/
theorem splitter_markerless_single_page (t : List Char)
    (h1 : scanAll matchPageEq t = []) (h2 : scanAll matchPageEqOpen t = [])
    (h3 : scanAll matchNlPage t = []) (h4 : scanAll matchPageBare t = [])
    (h5 : scanBol matchPolicyMarker (normalize_newlines t) = []) :
    calculate_page_boundaries t = [(1, 0, t.length)] ∧
    split_policy_combo_into_pages t = [⟨0, normalize_newlines t⟩] := by
  constructor
  · simp [calculate_page_boundaries, qc_marker_matches, h1, h2, h3, h4]
  · simp [split_policy_combo_into_pages, h5]

/-- Witness for C8: the markerless input "no markers here" becomes the
single page 1 (respectively 0) holding the whole text. -/
theorem splitter_markerless_single_page_witness :
    calculate_page_boundaries "no markers here".data = [(1, 0, 15)] ∧
    split_policy_combo_into_pages "no markers here".data
      = [⟨0, "no markers here".data⟩] := by
  have h := splitter_markerless_single_page "no markers here".data
    (by decide) (by decide) (by decide) (by decide) (by decide)
  simpa using h

/-! ## Claims C5, C6 : neighbor expansion and range merge -/

/-- A concrete policy combo document whose pages are numbered 2 and 3. -/
def policyDocTwoThree : List Char :=
  List.replicate 80 '=' ++ "\nPAGE 2\n".data ++ List.replicate 80 '='
    ++ "\ntext two\n".data ++ List.replicate 80 '=' ++ "\nPAGE 3\n".data
    ++ List.replicate 80 '=' ++ "\ntext three\n".data

set_option maxRecDepth 8000 in
/-- Counterexample to C5. `_expand_neighbors` takes no document bounds at
all: for the document with pages 2 and 3, qualifying set containing only
page 2 and radius 1, the expansion contains page 1, which lies below the
minimum page number 2 of the document. The claimed clipping to the
document range only happens in `merge_page_ranges`. -/
theorem expand_neighbors_escapes_document_range :
    (split_policy_combo_into_pages policyDocTwoThree).map PolicyPage.page_number = [2, 3] ∧
    expand_neighbors [2] 1 = [1, 2, 3] ∧
    (1 : Int) < 2 := by
  refine ⟨by decide, by decide, by decide⟩

/-- The merge-loop elements only combine starts and ends of the ranges fed
in: any property of ranges closed under keeping a start and taking the max
of two ends is preserved. -/
theorem mergeRangesLoop_preserves (Q : Nat × Nat → Prop)
    (hQ : ∀ a b : Nat × Nat, Q a → Q b → Q (a.1, max a.2 b.2)) :
    ∀ (l acc : List (Nat × Nat)), (∀ r ∈ acc, Q r) → (∀ r ∈ l, Q r) →
      ∀ r ∈ mergeRangesLoop acc l, Q r := by
  intro l
  induction l with
  | nil =>
    intro acc hacc _ b hb
    rw [mergeRangesLoop] at hb
    exact hacc b (List.mem_reverse.mp hb)
  | cons x rest ih =>
    obtain ⟨s, e⟩ := x
    intro acc hacc hl b hb
    have hse : Q (s, e) := hl (s, e) (List.mem_cons_self _ _)
    have hrest : ∀ q ∈ rest, Q q := fun q hq => hl q (List.mem_cons_of_mem _ hq)
    match acc with
    | [] =>
      rw [mergeRangesLoop] at hb
      exact ih [(s, e)] (by simpa using hse) hrest b hb
    | (ls, le) :: accT =>
      rw [mergeRangesLoop] at hb
      by_cases hc : s ≤ le + 1
      · rw [if_pos hc] at hb
        refine ih ((ls, max le e) :: accT) ?_ hrest b hb
        intro q hq
        rcases List.mem_cons.mp hq with h | h
        · subst h
          exact hQ (ls, le) (s, e) (hacc _ (List.mem_cons_self _ _)) hse
        · exact hacc q (List.mem_cons_of_mem _ h)
      · rw [if_neg hc] at hb
        refine ih ((s, e) :: (ls, le) :: accT) ?_ hrest b hb
        intro q hq
        rcases List.mem_cons.mp hq with h | h
        · subst h; exact hse
        · exact hacc q h

/-- C5 (amended). The clipping to the document's min and max page numbers
happens in `merge_page_ranges`: every page covered by one of its output
ranges lies between `doc_min_page` and `doc_max_page` of the document's
page set. `_expand_neighbors` clips only below zero: for a positive
radius every element of its output is non-negative, but nothing bounds it
by the document's own page range (see the counterexample). -/
theorem page_range_expansion_clipping :
    (∀ (docPages pages : List Nat) (buffer p : Nat),
      (∃ r ∈ merge_page_ranges docPages pages buffer, r.1 ≤ p ∧ p ≤ r.2) →
      doc_min_page docPages ≤ p ∧ p ≤ doc_max_page docPages) ∧
    (∀ (nums : List Int) (radius : Nat) (x : Int),
      1 ≤ radius → x ∈ expand_neighbors nums radius → 0 ≤ x) := by
  constructor
  · intro docPages pages buffer p ⟨r, hr, hp1, hp2⟩
    have hQ : doc_min_page docPages ≤ r.1 ∧ r.2 ≤ doc_max_page docPages := by
      unfold merge_page_ranges at hr
      by_cases hemp : pages.isEmpty
      · simp [hemp] at hr
      · simp only [hemp, if_false, Bool.false_eq_true] at hr
        refine mergeRangesLoop_preserves
          (fun r => doc_min_page docPages ≤ r.1 ∧ r.2 ≤ doc_max_page docPages)
          (fun a b ha hb => ⟨ha.1, by simp [ha.2, hb.2]⟩) _ [] (by simp) ?_ r hr
        intro r' hr'
        have := (List.Perm.mem_iff (List.perm_insertionSort _ _)).mp hr'
        obtain ⟨q, _, hq⟩ := List.mem_map.mp this
        constructor
        · rw [← hq]
          exact Nat.le_max_left _ _
        · rw [← hq]
          exact Nat.min_le_left _ _
    exact ⟨le_trans hQ.1 hp1, le_trans hp2 hQ.2⟩
  · intro nums radius x hrad hx
    unfold expand_neighbors at hx
    have hr0 : ¬ (radius = 0) := by omega
    simp only [hr0, if_false, Bool.false_eq_true] at hx
    have := (List.Perm.mem_iff (List.perm_insertionSort _ _)).mp hx
    have := List.mem_filter.mp this
    simpa using this.2

/-- Witness for C5 (amended): page 5 covered by the merged ranges of the
document with pages 1..9 lies within its min/max, and the element 1 of
`expand_neighbors [2] 1` is non-negative. -/
theorem page_range_expansion_clipping_witness :
    (doc_min_page (List.range' 1 9) ≤ 5 ∧ 5 ≤ doc_max_page (List.range' 1 9)) ∧
    (0 : Int) ≤ 1 := by
  refine ⟨page_range_expansion_clipping.1 (List.range' 1 9) [5] 1 5
    ⟨(4, 6), by decide, by decide, by decide⟩, ?_⟩
  exact page_range_expansion_clipping.2 [2] 1 1 (by decide) (by decide)

/-- The merge loop keeps the output chained: consecutive output ranges are
separated by more than one page whenever the accumulator is chained (in
reversed order) and the pending input is sorted by start with every start
at or above the accumulator head's start. -/
theorem mergeRangesLoop_chained :
    ∀ (l acc : List (Nat × Nat)),
      List.Pairwise (fun x y : Nat × Nat => x.1 ≤ y.1) l →
      acc.Pairwise (fun x y => y.2 + 1 < x.1) →
      (∀ r ∈ l, ∀ h ∈ acc.head?, h.1 ≤ r.1) →
      (mergeRangesLoop acc l).Pairwise (fun r1 r2 => r1.2 + 1 < r2.1) := by
  intro l
  induction l with
  | nil =>
    intro acc _ hacc _
    rw [mergeRangesLoop]
    exact (List.pairwise_reverse).mpr hacc
  | cons x rest ih =>
    obtain ⟨s, e⟩ := x
    intro acc hl hacc hhead
    have hl1 : ∀ r ∈ rest, s ≤ r.1 := fun r hr => (List.pairwise_cons.mp hl).1 r hr
    have hl2 : List.Pairwise (fun x y : Nat × Nat => x.1 ≤ y.1) rest :=
      (List.pairwise_cons.mp hl).2
    match acc with
    | [] =>
      rw [mergeRangesLoop]
      refine ih [(s, e)] hl2 (by simp) ?_
      intro r hr h hh
      simp only [List.head?_cons, Option.mem_def, Option.some.injEq] at hh
      subst hh
      exact hl1 r hr
    | (ls, le) :: accT =>
      have hls : ls ≤ s := hhead (s, e) (List.mem_cons_self _ _) (ls, le) rfl
      rw [mergeRangesLoop]
      by_cases hc : s ≤ le + 1
      · rw [if_pos hc]
        refine ih ((ls, max le e) :: accT) hl2 ?_ ?_
        · exact List.pairwise_cons.mpr
            ⟨fun a ha => (List.pairwise_cons.mp hacc).1 a ha, (List.pairwise_cons.mp hacc).2⟩
        · intro r hr h hh
          simp only [List.head?_cons, Option.mem_def, Option.some.injEq] at hh
          subst hh
          exact le_trans hls (hl1 r hr)
      · rw [if_neg hc]
        refine ih ((s, e) :: (ls, le) :: accT) hl2 ?_ ?_
        · refine List.pairwise_cons.mpr ⟨?_, hacc⟩
          intro a ha
          rcases List.mem_cons.mp ha with h | h
          · subst h; omega
          · have := (List.pairwise_cons.mp hacc).1 a h
            omega
        · intro r hr h hh
          simp only [List.head?_cons, Option.mem_def, Option.some.injEq] at hh
          subst hh
          exact hl1 r hr

/-- C6. Range merging is correct and maximal: for the document with pages
1..21 and qualifying pages 5, 6, 9, 20 with radius 1, the expansion step
produces the ranges (4,6), (5,7), (8,10), (19,21) — covering exactly the
page set 4..10 and 19..21 — and the merged output is [(4,10),(19,21)];
and for every document, qualifying list and buffer, any two ranges of the
merged output in order are separated by more than one page (nothing
further is mergeable). -/
theorem merge_page_ranges_correct :
    merge_page_ranges (List.range' 1 21) [5, 6, 9, 20] 1 = [(4, 10), (19, 21)] ∧
    ([5, 6, 9, 20].map (fun p =>
        (max (doc_min_page (List.range' 1 21)) (p - 1),
         min (doc_max_page (List.range' 1 21)) (p + 1)))
      = [(4, 6), (5, 7), (8, 10), (19, 21)]) ∧
    (∀ p : Nat,
      (∃ r ∈ ([(4, 6), (5, 7), (8, 10), (19, 21)] : List (Nat × Nat)), r.1 ≤ p ∧ p ≤ r.2) ↔
      p ∈ ([4, 5, 6, 7, 8, 9, 10, 19, 20, 21] : List Nat)) ∧
    ∀ (docPages pages : List Nat) (buffer : Nat),
      (merge_page_ranges docPages pages buffer).Pairwise (fun r1 r2 => r1.2 + 1 < r2.1) := by
  refine ⟨by decide, by decide, ?_, ?_⟩
  · intro p
    constructor
    · rintro ⟨r, hr, h1, h2⟩
      fin_cases hr <;> simp_all <;> omega
    · intro hp
      fin_cases hp
      · exact ⟨(4, 6), by simp, by omega, by omega⟩
      · exact ⟨(4, 6), by simp, by omega, by omega⟩
      · exact ⟨(4, 6), by simp, by omega, by omega⟩
      · exact ⟨(5, 7), by simp, by omega, by omega⟩
      · exact ⟨(8, 10), by simp, by omega, by omega⟩
      · exact ⟨(8, 10), by simp, by omega, by omega⟩
      · exact ⟨(8, 10), by simp, by omega, by omega⟩
      · exact ⟨(19, 21), by simp, by omega, by omega⟩
      · exact ⟨(19, 21), by simp, by omega, by omega⟩
      · exact ⟨(19, 21), by simp, by omega, by omega⟩
  · intro docPages pages buffer
    unfold merge_page_ranges
    by_cases hemp : pages.isEmpty
    · simp [hemp]
    · simp only [hemp, if_false, Bool.false_eq_true]
      refine mergeRangesLoop_chained _ [] ?_ (by simp) (by simp)
      exact List.Pairwise.imp (fun h => h) (List.sorted_insertionSort _ _)

/-! ## Claim C7 : the numeric-density criterion -/

/-- Spec-side rendering of the claim's currency-like token, written from
the words of the claim for comparison against the source (not part of the
repository code): at a position, either a dollar sign immediately followed
by a digit (value taken from the digit/comma run), or a digit-led run that
is comma-grouped with at least 4 digits, or a bare integer of at least 5
digits. -/
def specCurrencyToken (cs : List Char) : Option (Nat × Nat) :=
  match cs with
  | '$' :: rest =>
    if (rest.headD ' ').isDigit then
      let d := rest.takeWhile (fun c => c.isDigit || c = ',')
      some (1 + d.length, digitsToNat (d.filter Char.isDigit))
    else none
  | c :: _ =>
    if c.isDigit then
      let seg := cs.takeWhile (fun c => c.isDigit || c = ',')
      let digits := seg.filter Char.isDigit
      if seg.contains ',' && decide (4 ≤ digits.length) then
        some (seg.length, digitsToNat digits)
      else if !seg.contains ',' && decide (5 ≤ digits.length) then
        some (seg.length, digitsToNat digits)
      else none
    else none
  | [] => none

/-- Spec-side rendering of the claim's numeric-density criterion: some
currency-like token parses to at least the minimum 200, and no
instructional marker occurs in the text. -/
def spec_numeric_density_qualifies (t : List Char) : Bool :=
  !(page_is_instructional t) && (scanAll specCurrencyToken t).any (fun m => 200 ≤ m.2.2)

/-- A page text containing a comma-grouped integer but no dollar sign. -/
def commaPageText : List Char := "\nLimit 12,345 payable\n".data

/-- A one-page document whose single page is `commaPageText`. -/
def commaPageDoc : List Char :=
  List.replicate 50 '=' ++ "\nPAGE 1\n".data ++ List.replicate 50 '=' ++ commaPageText

set_option maxRecDepth 8000 in
/-- Counterexample to C7. The page text "Limit 12,345 payable" contains a
comma-grouped integer of five digits whose value 12345 is far above the
minimum 200 and carries no instructional marker, so under the claim the
page qualifies; but `find_pages_with_dollar_amounts` selects no page of the
one-page document holding it, because the source only scans for
`\$\s*([0-9,]+)` tokens, and the comma-grouped and bare-integer shapes of
the claim do not occur there. -/
theorem numeric_density_ignores_dollarless_tokens :
    spec_numeric_density_qualifies commaPageText = true ∧
    page_is_instructional commaPageText = false ∧
    find_pages_with_dollar_amounts commaPageDoc = [] := by
  refine ⟨by decide, by decide, by decide⟩

/-- C7 (amended). A page number is selected by
`find_pages_with_dollar_amounts` exactly when one of its recorded
boundary spans has a text that carries no instructional marker
(EXAMPLE, CALCULATION, HOW TO, SAMPLE, ILLUSTRATION, checked on the
upper-cased text) and contains some `\$\s*([0-9,]+)` token whose digits,
commas removed, parse to at least 200. Dollar-less comma-grouped or bare
integers play no part in this criterion. -/
theorem find_pages_dollar_criterion (text : List Char) (p : Nat) :
    p ∈ find_pages_with_dollar_amounts text ↔
      ∃ s e, (p, s, e) ∈ calculate_page_boundaries text ∧
        page_is_instructional (pySlice text s e) = false ∧
        ∃ m ∈ scanAll matchDollarAmount (pySlice text s e),
          ∃ a, parse_dollar_amount m.2.2 = some a ∧ 200 ≤ a := by
  unfold find_pages_with_dollar_amounts
  rw [List.Perm.mem_iff (List.perm_insertionSort _ _), List.mem_dedup, List.mem_filterMap]
  constructor
  · rintro ⟨r, hr, hf⟩
    obtain ⟨q, sq, eq⟩ := r
    by_cases hi : page_is_instructional (pySlice text sq eq)
    · simp [hi] at hf
    · by_cases hbig : page_has_big_amount (pySlice text sq eq)
      · simp only [hi, if_false, hbig, if_true, Option.some.injEq, Bool.false_eq_true] at hf
        subst hf
        obtain ⟨m, hm, hma⟩ := List.any_eq_true.mp hbig
        refine ⟨sq, eq, hr, by simpa using hi, m, hm, ?_⟩
        cases hpa : parse_dollar_amount m.2.2 with
        | none => rw [hpa] at hma; simp at hma
        | some a => rw [hpa] at hma; exact ⟨a, rfl, by simpa using hma⟩
      · simp [hi, hbig] at hf
  · rintro ⟨s, e, hr, hi, m, hm, a, hpa, ha⟩
    refine ⟨(p, s, e), hr, ?_⟩
    have hbig : page_has_big_amount (pySlice text s e) = true := by
      refine List.any_eq_true.mpr ⟨m, hm, ?_⟩
      rw [hpa]
      simpa using ha
    simp [hi, hbig]

/-! ## Claim C9 : interleaved merge coverage -/

/-- The extraction loop never returns a page number it has already seen,
and its output page numbers are distinct. -/
theorem extractLoop_keys_nodup (len : Nat) (c : List Char) :
    ∀ (ms : List (Nat × Nat × List Char)) (seen : List Nat),
      (∀ p ∈ (extractLoop len c ms seen).map Prod.fst, p ∉ seen) ∧
      ((extractLoop len c ms seen).map Prod.fst).Nodup := by
  intro ms
  induction ms with
  | nil => intro seen; simp [extractLoop]
  | cons m rest ih =>
    intro seen
    obtain ⟨s, e, d⟩ := m
    rw [extractLoop.eq_def]
    simp only
    by_cases hc : digitsToNat d ∈ seen
    · rw [if_pos (List.elem_iff.mpr hc)]
      exact ih seen
    · rw [if_neg (fun hin => hc (List.elem_iff.mp hin))]
      obtain ⟨h1, h2⟩ := ih (digitsToNat d :: seen)
      constructor
      · intro p hp hpseen
        simp only [List.map_cons, List.mem_cons] at hp
        rcases hp with h | h
        · exact hc (h ▸ hpseen)
        · exact h1 p h (List.mem_cons_of_mem _ hpseen)
      · rw [List.map_cons]
        exact List.nodup_cons.mpr ⟨fun hmem => h1 _ hmem (List.mem_cons_self _ _), h2⟩

/-- Page numbers extracted by `extract_pages_from_content` are distinct. -/
theorem extract_pages_nodup (content : List Char) :
    ((extract_pages_from_content content).map Prod.fst).Nodup := by
  by_cases h1 : (scanAll matchPageEq content ++ scanAll matchBracketPage content).isEmpty
  · by_cases h2 : (scanAll matchNlPage content).isEmpty
    · simp [extract_pages_from_content, h1, h2]
    · simpa [extract_pages_from_content, h1, h2] using (extractLoop_keys_nodup _ _ _ []).2
  · simpa [extract_pages_from_content, h1] using (extractLoop_keys_nodup _ _ _ []).2

/-- Python `page_num in ...dict` agrees with membership in the extracted
key list. -/
theorem pageDict_eq_none_iff (pages : List (Nat × List Char)) (n : Nat) :
    pageDict pages n = none ↔ n ∉ pages.map Prod.fst := by
  unfold pageDict
  cases hf : pages.reverse.find? (fun pr => pr.1 = n) with
  | some pr =>
    have hmem : n ∈ pages.map Prod.fst :=
      List.mem_map.mpr ⟨pr, List.mem_reverse.mp (List.mem_of_find?_eq_some hf),
        by simpa using List.find?_some hf⟩
    simp [hmem]
  | none =>
    constructor
    · intro _ hn
      obtain ⟨pr, hpr, hfst⟩ := List.mem_map.mp hn
      have hne := List.find?_eq_none.mp hf pr (List.mem_reverse.mpr hpr)
      simp [hfst] at hne
    · intro _
      rfl

/-- The union of the two key sets, sorted: distinct, strictly ascending,
and holding exactly the keys of the two sides. -/
theorem sorted_union_spec (xs ys : List Nat) :
    (sorted_union xs ys).Nodup ∧ (sorted_union xs ys).Sorted (· < ·) ∧
      ∀ n, n ∈ sorted_union xs ys ↔ (n ∈ xs ∨ n ∈ ys) := by
  have hperm := List.perm_insertionSort (fun x y => x ≤ y) (xs ++ ys).dedup
  have hnodup : (sorted_union xs ys).Nodup :=
    (List.Perm.nodup_iff hperm).mpr (List.nodup_dedup _)
  refine ⟨hnodup, ?_, ?_⟩
  · exact List.Sorted.lt_of_le (List.sorted_insertionSort _ _) hnodup
  · intro n
    rw [sorted_union, List.Perm.mem_iff hperm, List.mem_dedup, List.mem_append]

/-- C9. Merge coverage of the interleaving mode of
`combine_extraction_files`: the emitted page blocks carry each page number
present in either source's page map exactly once, in strictly ascending
order, and a page missing from one source gets that source's explicit
"[Page not found ...]" marker line in its block rather than any content. -/
theorem merge_interleaved_coverage (tText pText : List Char) :
    ((combine_extractions_interleaved tText pText).map Prod.fst).Sorted (· < ·) ∧
    (∀ n, n ∈ (combine_extractions_interleaved tText pText).map Prod.fst ↔
      (n ∈ (extract_pages_from_content tText).map Prod.fst ∨
       n ∈ (extract_pages_from_content pText).map Prod.fst)) ∧
    (∀ n, (n ∈ (extract_pages_from_content tText).map Prod.fst ∨
           n ∈ (extract_pages_from_content pText).map Prod.fst) →
      ((combine_extractions_interleaved tText pText).map Prod.fst).count n = 1) ∧
    (∀ n block, (n, block) ∈ combine_extractions_interleaved tText pText →
      n ∉ (extract_pages_from_content tText).map Prod.fst →
      "[Page not found in Tesseract extraction]".data ∈ block) ∧
    (∀ n block, (n, block) ∈ combine_extractions_interleaved tText pText →
      n ∉ (extract_pages_from_content pText).map Prod.fst →
      "[Page not found in PyMuPDF extraction]".data ∈ block) := by
  obtain ⟨hnodup, hsorted, hmem⟩ :=
    sorted_union_spec ((extract_pages_from_content tText).map Prod.fst)
      ((extract_pages_from_content pText).map Prod.fst)
  have hkeys : (combine_extractions_interleaved tText pText).map Prod.fst =
      sorted_union ((extract_pages_from_content tText).map Prod.fst)
        ((extract_pages_from_content pText).map Prod.fst) := by
    simp [combine_extractions_interleaved, interleave_blocks, List.map_map,
      Function.comp_def]
  refine ⟨by rw [hkeys]; exact hsorted, ?_, ?_, ?_, ?_⟩
  · intro n
    rw [hkeys]
    exact hmem n
  · intro n hn
    rw [hkeys]
    exact List.count_eq_one_of_mem hnodup ((hmem n).mpr hn)
  · intro n block hblock hnt
    obtain ⟨q, _, heq⟩ := List.mem_map.mp hblock
    have hq : q = n := congrArg Prod.fst heq
    subst hq
    have hcontent : block = pageBlock (pageDict (extract_pages_from_content tText))
        (pageDict (extract_pages_from_content pText)) q := by
      have := congrArg Prod.snd heq
      simpa using this.symm
    have hnone : pageDict (extract_pages_from_content tText) q = none :=
      (pageDict_eq_none_iff _ q).mpr hnt
    rw [hcontent]
    simp [pageBlock, hnone]
  · intro n block hblock hnp
    obtain ⟨q, _, heq⟩ := List.mem_map.mp hblock
    have hq : q = n := congrArg Prod.fst heq
    subst hq
    have hcontent : block = pageBlock (pageDict (extract_pages_from_content tText))
        (pageDict (extract_pages_from_content pText)) q := by
      have := congrArg Prod.snd heq
      simpa using this.symm
    have hnone : pageDict (extract_pages_from_content pText) q = none :=
      (pageDict_eq_none_iff _ q).mpr hnp
    rw [hcontent]
    simp [pageBlock, hnone]

/-! ## Claim C4 : duplicate page markers -/

/-- A document whose marker stream is PAGE 1, PAGE 2, PAGE 1 with bodies
b1, b2, b3. -/
def qcDupDoc : List Char :=
  List.replicate 50 '=' ++ "\nPAGE 1\n".data ++ List.replicate 50 '=' ++ "\nb1\n".data
  ++ List.replicate 50 '=' ++ "\nPAGE 2\n".data ++ List.replicate 50 '=' ++ "\nb2\n".data
  ++ List.replicate 50 '=' ++ "\nPAGE 1\n".data ++ List.replicate 50 '=' ++ "\nb3\n".data

set_option maxRecDepth 16000 in
/-- Counterexample to C4. In `extract_pages_from_content` a later duplicate
marker is skipped outright: on the marker stream PAGE 1, PAGE 2, PAGE 1 the
recorded text of page 1 is exactly the first span "b1", not a span
extended to the later occurrence's end — the text "b3" after the duplicate
marker is in the document but in no recorded page. Only the boundary
dictionary of qc_head extends ends (see the amended theorem). -/
theorem extract_pages_skips_duplicate_markers :
    extract_pages_from_content qcDupDoc = [(1, "b1".data), (2, "b2".data)] ∧
    containsSubstr "b3".data qcDupDoc = true ∧
    containsSubstr "b3".data "b1".data = false := by
  refine ⟨by decide, by decide, by decide⟩

/-- Unfolding lemma for the dictionary lookup over a cons cell. -/
theorem lookupB_cons (r : Nat × Nat × Nat) (rs : List (Nat × Nat × Nat)) (p : Nat) :
    lookupB (r :: rs) p = if r.1 = p then some r.2 else lookupB rs p := by
  unfold lookupB
  rw [List.find?_cons]
  by_cases h : r.1 = p
  · simp [h]
  · simp [h]

/-- Updating one key of the boundaries dictionary leaves every other key
unchanged. -/
theorem lookupB_updateB_ne (b : List (Nat × Nat × Nat)) (q p : Nat) (v : Nat × Nat)
    (hne : q ≠ p) : lookupB (updateB b q v) p = lookupB b p := by
  induction b with
  | nil => rfl
  | cons r rs ih =>
    show lookupB ((if r.1 = q then (q, v) else r) :: updateB rs q v) p = _
    by_cases hr : r.1 = q
    · rw [if_pos hr, lookupB_cons, lookupB_cons]
      rw [if_neg (by simpa using hne), if_neg (by simp [hr, hne])]
      exact ih
    · rw [if_neg hr, lookupB_cons, lookupB_cons]
      by_cases hp : r.1 = p
      · rw [if_pos hp, if_pos hp]
      · rw [if_neg hp, if_neg hp]
        exact ih

/-- Updating a present key of the boundaries dictionary replaces its value
in place. -/
theorem lookupB_updateB_self (b : List (Nat × Nat × Nat)) (p : Nat) (v0 v : Nat × Nat)
    (h : lookupB b p = some v0) : lookupB (updateB b p v) p = some v := by
  induction b with
  | nil => simp [lookupB] at h
  | cons r rs ih =>
    show lookupB ((if r.1 = p then (p, v) else r) :: updateB rs p v) p = some v
    rw [lookupB_cons] at h
    by_cases hr : r.1 = p
    · rw [if_pos hr, lookupB_cons, if_pos rfl]
    · rw [if_neg hr, lookupB_cons, if_neg hr]
      rw [if_neg hr] at h
      exact ih h

/-- Appending a fresh record is found when the key is absent before it. -/
theorem lookupB_append_fresh (b : List (Nat × Nat × Nat)) (p s e : Nat)
    (h : lookupB b p = none) : lookupB (b ++ [(p, s, e)]) p = some (s, e) := by
  induction b with
  | nil => simp [lookupB, List.find?]
  | cons r rs ih =>
    rw [lookupB_cons] at h
    rw [List.cons_append, lookupB_cons]
    by_cases hr : r.1 = p
    · rw [if_pos hr] at h; cases h
    · rw [if_neg hr] at h ⊢
      exact ih h

/-- Appending a record for a different key changes nothing at this key. -/
theorem lookupB_append_ne (b : List (Nat × Nat × Nat)) (r : Nat × Nat × Nat) (p : Nat)
    (hne : r.1 ≠ p) : lookupB (b ++ [r]) p = lookupB b p := by
  induction b with
  | nil => simp [lookupB, List.find?, hne]
  | cons x xs ih =>
    rw [List.cons_append, lookupB_cons, lookupB_cons]
    by_cases hx : x.1 = p
    · rw [if_pos hx, if_pos hx]
    · rw [if_neg hx, if_neg hx]
      exact ih

/-- Inserting a record for a different page number leaves a key's entry
unchanged. -/
theorem lookupB_insertBoundary_ne (b : List (Nat × Nat × Nat)) (r : Nat × Nat × Nat)
    (p : Nat) (hne : r.1 ≠ p) : lookupB (insertBoundary b r) p = lookupB b p := by
  unfold insertBoundary
  cases hl : lookupB b r.1 with
  | none =>
    exact lookupB_append_ne b r p hne
  | some v =>
    simp only
    by_cases hc : v.2 < r.2.2
    · rw [if_pos hc]
      exact lookupB_updateB_ne b r.1 p _ hne
    · rw [if_neg hc]

/-- C4 (amended). The duplicate handling of `_calculate_page_boundaries`
(qc_head.py lines 117-124): inserting a record for an already-present page
number keeps the first occurrence's start and sets the end to the maximum
of the old and new ends; a record for a fresh page number is recorded as
is; and across any sequence of insertions an existing entry's start never
changes while its end never decreases — a previously recorded page is
never shrunk by a later duplicate marker. (A separate later
overlap-resolution pass may clip ends; the claim's cited lines are the
insertion step.) -/
theorem insertBoundary_extends_never_shrinks :
    (∀ (b : List (Nat × Nat × Nat)) (p s0 e0 s1 e1 : Nat),
      lookupB b p = some (s0, e0) →
      lookupB (insertBoundary b (p, s1, e1)) p = some (s0, max e0 e1)) ∧
    (∀ (b : List (Nat × Nat × Nat)) (p s e : Nat),
      lookupB b p = none →
      lookupB (insertBoundary b (p, s, e)) p = some (s, e)) ∧
    (∀ (records b : List (Nat × Nat × Nat)) (p s e : Nat),
      lookupB b p = some (s, e) →
      ∃ e', e ≤ e' ∧ lookupB (records.foldl insertBoundary b) p = some (s, e')) := by
  have part1 : ∀ (b : List (Nat × Nat × Nat)) (p s0 e0 s1 e1 : Nat),
      lookupB b p = some (s0, e0) →
      lookupB (insertBoundary b (p, s1, e1)) p = some (s0, max e0 e1) := by
    intro b p s0 e0 s1 e1 h
    unfold insertBoundary
    rw [h]
    simp only
    by_cases hc : e0 < e1
    · rw [if_pos (by simpa using hc)]
      rw [lookupB_updateB_self b p (s0, e0) _ h]
      congr 2
      omega
    · rw [if_neg (by simpa using hc)]
      rw [h]
      congr 2
      omega
  have part2 : ∀ (b : List (Nat × Nat × Nat)) (p s e : Nat),
      lookupB b p = none →
      lookupB (insertBoundary b (p, s, e)) p = some (s, e) := by
    intro b p s e h
    unfold insertBoundary
    rw [h]
    exact lookupB_append_fresh b p s e h
  refine ⟨part1, part2, ?_⟩
  intro records
  induction records with
  | nil =>
    intro b p s e h
    exact ⟨e, le_refl e, by simpa using h⟩
  | cons r rest ih =>
    intro b p s e h
    by_cases hr : r.1 = p
    · obtain ⟨pr, s1, e1⟩ := r
      simp only at hr
      subst hr
      have h1 := part1 b pr s e s1 e1 h
      obtain ⟨e', he', hl⟩ := ih (insertBoundary b (pr, s1, e1)) pr s (max e e1) h1
      exact ⟨e', le_trans (Nat.le_max_left _ _) he', by simpa using hl⟩
    · have h1 : lookupB (insertBoundary b r) p = some (s, e) := by
        rw [lookupB_insertBoundary_ne b r p hr]
        exact h
      obtain ⟨e', he', hl⟩ := ih (insertBoundary b r) p s e h1
      exact ⟨e', he', by simpa using hl⟩

/-- Witness for C4 (amended): inserting a duplicate record for page 1 with
a larger end extends the recorded span from (10,20) to (10,50); a fresh
page 2 is recorded as given; and after a sequence of further insertions
the entry of page 1 still starts at 10 with an end at least 20. -/
theorem insertBoundary_extends_never_shrinks_witness :
    lookupB (insertBoundary [(1, 10, 20)] (1, 30, 50)) 1 = some (10, 50) ∧
    lookupB (insertBoundary [] (2, 5, 9)) 2 = some (5, 9) ∧
    ∃ e', 20 ≤ e' ∧
      lookupB ([(1, 0, 25), (2, 30, 44)].foldl insertBoundary [(1, 10, 20)]) 1 = some (10, e') := by
  refine ⟨?_, ?_, ?_⟩
  · have h := insertBoundary_extends_never_shrinks.1 [(1, 10, 20)] 1 10 20 30 50 (by decide)
    simpa using h
  · exact insertBoundary_extends_never_shrinks.2.1 [] 2 5 9 (by decide)
  · exact insertBoundary_extends_never_shrinks.2.2 [(1, 0, 25), (2, 30, 44)]
      [(1, 10, 20)] 1 10 20 (by decide)

/-! ## Claim C3 : deterministic, lossless splitting

A well-formed document is an alternation of canonical pattern-1 page
markers and bodies: each body is non-empty and holds no `=` (so no marker
or marker fragment can start inside or straddle a body), digit strings are
non-empty, and page numbers are pairwise distinct. On such documents the
scan finds exactly the markers, and the recorded spans of
`_calculate_page_boundaries` are exactly the bodies. -/

/-- The canonical pattern-1 page marker with 50-character equals runs. -/
def pageMarker (ds : List Char) : List Char :=
  List.replicate 50 '=' ++
    '\n' :: 'P' :: 'A' :: 'G' :: 'E' :: ' ' :: (ds ++ '\n' :: List.replicate 50 '=')

/-- A document built from (digit string, body) pairs. -/
def mkDoc : List (List Char × List Char) → List Char
  | [] => []
  | (ds, b) :: rest => pageMarker ds ++ (b ++ mkDoc rest)

theorem pageMarker_length (ds : List Char) :
    (pageMarker ds).length = 107 + ds.length := by
  simp [pageMarker]
  omega

theorem takeWhile_append_all {p : Char → Bool} :
    ∀ {xs : List Char} (ys : List Char), (∀ x ∈ xs, p x = true) →
      (xs ++ ys).takeWhile p = xs ++ ys.takeWhile p := by
  intro xs
  induction xs with
  | nil => intro ys _; simp
  | cons x xs ih =>
    intro ys h
    rw [List.cons_append, List.takeWhile_cons, if_pos (h x (List.mem_cons_self _ _)),
      ih ys (fun x hx => h x (List.mem_cons_of_mem _ hx))]
    simp

theorem dropWhile_append_all {p : Char → Bool} :
    ∀ {xs : List Char} (ys : List Char), (∀ x ∈ xs, p x = true) →
      (xs ++ ys).dropWhile p = ys.dropWhile p := by
  intro xs
  induction xs with
  | nil => intro ys _; simp
  | cons x xs ih =>
    intro ys h
    rw [List.cons_append, List.dropWhile_cons, if_pos (h x (List.mem_cons_self _ _))]
    exact ih ys (fun x hx => h x (List.mem_cons_of_mem _ hx))

/-- A decimal digit is not Python whitespace. -/
theorem pyWs_of_isDigit {c : Char} (h : c.isDigit = true) : pyWs c = false := by
  have h1 : c ≠ ' ' := fun he => by subst he; exact absurd h (by decide)
  have h2 : c ≠ '\t' := fun he => by subst he; exact absurd h (by decide)
  have h3 : c ≠ '\n' := fun he => by subst he; exact absurd h (by decide)
  have h4 : c ≠ '\r' := fun he => by subst he; exact absurd h (by decide)
  have hlo : (48 : UInt32) ≤ c.val := by
    simp [Char.isDigit] at h
    exact h.1
  have hlo' : (48 : Nat) ≤ c.toNat := by exact_mod_cast hlo
  have h5 : c.toNat ≠ 11 := by omega
  have h6 : c.toNat ≠ 12 := by omega
  simp [pyWs, h1, h2, h3, h4, h5, h6]

/-- A decimal digit is not the equals sign. -/
theorem ne_eq_of_isDigit {c : Char} (h : c.isDigit = true) : c ≠ '=' :=
  fun he => by subst he; exact absurd h (by decide)

/-- On a run of 50 equals signs a predicate failing on the equals sign
takes nothing. -/
theorem takeWhile_replicateEq_nil {p : Char → Bool} (h : p '=' = false) (ys : List Char) :
    List.takeWhile p (List.replicate 50 '=' ++ ys) = [] := by
  rw [show (50 : Nat) = 49 + 1 from rfl, List.replicate_succ, List.cons_append,
    List.takeWhile_cons, if_neg (by simp [h])]

/-- On a run of 50 equals signs a predicate failing on the equals sign
drops nothing. -/
theorem dropWhile_replicateEq_id {p : Char → Bool} (h : p '=' = false) (ys : List Char) :
    List.dropWhile p (List.replicate 50 '=' ++ ys) = List.replicate 50 '=' ++ ys := by
  have hsplit : List.replicate 50 '=' ++ ys = '=' :: (List.replicate 49 '=' ++ ys) := by
    rw [show (50 : Nat) = 49 + 1 from rfl, List.replicate_succ, List.cons_append]
  rw [hsplit, List.dropWhile_cons, if_neg (by simp [h])]

/-- The pattern-1 matcher succeeds at a canonical marker followed by a
body that is non-empty and free of `=`, consuming exactly the marker and
capturing its digit string. -/
theorem matchPageEq_at_marker (ds b t : List Char)
    (hds : ds ≠ []) (hdig : ∀ c ∈ ds, c.isDigit = true)
    (hb : b ≠ []) (hbe : '=' ∉ b) :
    matchPageEq (pageMarker ds ++ (b ++ t)) = some (107 + ds.length, ds) := by
  obtain ⟨d0, ds', rfl⟩ := List.exists_cons_of_ne_nil hds
  obtain ⟨b0, b', rfl⟩ := List.exists_cons_of_ne_nil hb
  have hb0 : b0 ≠ '=' := fun he => hbe (by simp [he])
  have hd0 : d0.isDigit = true := hdig d0 (List.mem_cons_self _ _)
  have hall : ∀ x ∈ List.replicate 50 '=', (fun c => decide (c = '=')) x = true := by
    intro x hx
    simp [List.eq_of_mem_replicate hx]
  have hdigits : ∀ x ∈ d0 :: ds', Char.isDigit x = true := hdig
  have hshape : pageMarker (d0 :: ds') ++ ((b0 :: b') ++ t)
      = List.replicate 50 '=' ++ ('\n' :: 'P' :: 'A' :: 'G' :: 'E' :: ' ' ::
          ((d0 :: ds') ++ ('\n' :: (List.replicate 50 '=' ++ (b0 :: (b' ++ t)))))) := by
    simp [pageMarker]
  have htake1 : List.takeWhile (fun c => decide (c = '='))
      (List.replicate 50 '=' ++ ('\n' :: 'P' :: 'A' :: 'G' :: 'E' :: ' ' ::
        ((d0 :: ds') ++ ('\n' :: (List.replicate 50 '=' ++ (b0 :: (b' ++ t)))))))
      = List.replicate 50 '=' := by
    rw [takeWhile_append_all _ hall, List.takeWhile_cons, if_neg (by decide), List.append_nil]
  have hdrop1 : List.dropWhile (fun c => decide (c = '='))
      (List.replicate 50 '=' ++ ('\n' :: 'P' :: 'A' :: 'G' :: 'E' :: ' ' ::
        ((d0 :: ds') ++ ('\n' :: (List.replicate 50 '=' ++ (b0 :: (b' ++ t)))))))
      = '\n' :: 'P' :: 'A' :: 'G' :: 'E' :: ' ' ::
          ((d0 :: ds') ++ ('\n' :: (List.replicate 50 '=' ++ (b0 :: (b' ++ t))))) := by
    rw [dropWhile_append_all _ hall, List.dropWhile_cons, if_neg (by decide)]
  have hw1 : List.takeWhile pyWs ('\n' :: 'P' :: 'A' :: 'G' :: 'E' :: ' ' ::
      ((d0 :: ds') ++ ('\n' :: (List.replicate 50 '=' ++ (b0 :: (b' ++ t)))))) = ['\n'] := by
    rw [List.takeWhile_cons, if_pos (by decide), List.takeWhile_cons, if_neg (by decide)]
  have hr2 : List.dropWhile pyWs ('\n' :: 'P' :: 'A' :: 'G' :: 'E' :: ' ' ::
      ((d0 :: ds') ++ ('\n' :: (List.replicate 50 '=' ++ (b0 :: (b' ++ t))))))
      = 'P' :: 'A' :: 'G' :: 'E' :: ' ' ::
          ((d0 :: ds') ++ ('\n' :: (List.replicate 50 '=' ++ (b0 :: (b' ++ t))))) := by
    rw [List.dropWhile_cons, if_pos (by decide), List.dropWhile_cons, if_neg (by decide)]
  have hlit : matchLitCI "PAGE".data ('P' :: 'A' :: 'G' :: 'E' :: ' ' ::
      ((d0 :: ds') ++ ('\n' :: (List.replicate 50 '=' ++ (b0 :: (b' ++ t))))))
      = some (' ' :: ((d0 :: ds') ++ ('\n' :: (List.replicate 50 '=' ++ (b0 :: (b' ++ t)))))) :=
    rfl
  have hw2 : List.takeWhile pyWs (' ' ::
      ((d0 :: ds') ++ ('\n' :: (List.replicate 50 '=' ++ (b0 :: (b' ++ t)))))) = [' '] := by
    rw [List.takeWhile_cons, if_pos (by decide), List.cons_append, List.takeWhile_cons,
      if_neg (by simp [pyWs_of_isDigit hd0])]
  have hr4 : List.dropWhile pyWs (' ' ::
      ((d0 :: ds') ++ ('\n' :: (List.replicate 50 '=' ++ (b0 :: (b' ++ t))))))
      = (d0 :: ds') ++ ('\n' :: (List.replicate 50 '=' ++ (b0 :: (b' ++ t)))) := by
    rw [List.dropWhile_cons, if_pos (by decide), List.cons_append, List.dropWhile_cons,
      if_neg (by simp [pyWs_of_isDigit hd0])]
  have hd : List.takeWhile Char.isDigit
      ((d0 :: ds') ++ ('\n' :: (List.replicate 50 '=' ++ (b0 :: (b' ++ t)))))
      = d0 :: ds' := by
    rw [takeWhile_append_all _ hdigits, List.takeWhile_cons, if_neg (by decide),
      List.append_nil]
  have hr5 : List.dropWhile Char.isDigit
      ((d0 :: ds') ++ ('\n' :: (List.replicate 50 '=' ++ (b0 :: (b' ++ t)))))
      = '\n' :: (List.replicate 50 '=' ++ (b0 :: (b' ++ t))) := by
    rw [dropWhile_append_all _ hdigits, List.dropWhile_cons, if_neg (by decide)]
  have hw3 : List.takeWhile pyWs ('\n' :: (List.replicate 50 '=' ++ (b0 :: (b' ++ t))))
      = ['\n'] := by
    rw [List.takeWhile_cons, if_pos (by decide), takeWhile_replicateEq_nil (by decide)]
  have hr6 : List.dropWhile pyWs ('\n' :: (List.replicate 50 '=' ++ (b0 :: (b' ++ t))))
      = List.replicate 50 '=' ++ (b0 :: (b' ++ t)) := by
    rw [List.dropWhile_cons, if_pos (by decide), dropWhile_replicateEq_id (by decide)]
  have he2 : List.takeWhile (fun c => decide (c = '='))
      (List.replicate 50 '=' ++ (b0 :: (b' ++ t))) = List.replicate 50 '=' := by
    rw [takeWhile_append_all _ hall, List.takeWhile_cons, if_neg (by simp [hb0]),
      List.append_nil]
  rw [hshape]
  unfold matchPageEq
  simp only [htake1, hdrop1, hw1, hr2, hlit, hw2, hr4, hd, hr5, hw3, hr6, he2,
    List.length_replicate, List.length_cons, List.length_nil, List.isEmpty_cons,
    List.getLast?_singleton, ne_eq, Option.some.injEq, not_true_eq_false, if_false,
    Bool.false_eq_true, Nat.lt_irrefl]
  rw [Prod.mk.injEq]
  exact ⟨by omega, rfl⟩

/-- The pattern-1 matcher fails wherever the text does not start with an
equals sign. -/
theorem matchPageEq_none_of_head_ne (c : Char) (cs : List Char) (hc : c ≠ '=') :
    matchPageEq (c :: cs) = none := by
  have hlen : (List.takeWhile (fun ch => decide (ch = '=')) (c :: cs)).length = 0 := by
    rw [List.takeWhile_cons, if_neg (by simp [hc])]
    rfl
  simp only [matchPageEq]
  rw [hlen]
  simp

theorem scanAux_nil {α : Type} (m : List Char → Option (Nat × α)) (fuel pos : Nat) :
    scanAux m fuel pos [] = [] := by
  cases fuel <;> rfl

/-- One successful scan step. -/
theorem scanAux_step {α : Type} (m : List Char → Option (Nat × α)) (cs : List Char)
    (fuel pos k : Nat) (v : α) (hne : cs ≠ []) (hm : m cs = some (k, v)) (hk : k ≠ 0) :
    scanAux m (fuel + 1) pos cs =
      (pos, pos + k, v) :: scanAux m fuel (pos + k) (cs.drop k) := by
  obtain ⟨c, cs', rfl⟩ := List.exists_cons_of_ne_nil hne
  rw [scanAux, hm]
  simp only []
  rw [if_neg hk]

/-- The scan walks one character at a time through an `=`-free stretch,
where pattern 1 can never start. -/
theorem scanAux_skip_noEq :
    ∀ (b t : List Char) (fuel pos : Nat), '=' ∉ b →
      scanAux matchPageEq (b.length + fuel) pos (b ++ t)
        = scanAux matchPageEq fuel (pos + b.length) t := by
  intro b
  induction b with
  | nil => intro t fuel pos _; simp
  | cons c b' ih =>
    intro t fuel pos h
    have hc : c ≠ '=' := fun he => h (by simp [he])
    rw [show (c :: b').length + fuel = (b'.length + fuel) + 1 by simp; omega,
      List.cons_append, scanAux, matchPageEq_none_of_head_ne c _ hc]
    simp only []
    rw [ih t fuel (pos + 1) (fun hm => h (List.mem_cons_of_mem _ hm))]
    rw [show pos + 1 + b'.length = pos + (c :: b').length by simp; omega]

/-- The expected matches of the pattern-1 scan on a well-formed document:
one per marker, at the accumulated offsets. -/
def expectedMatches (pos : Nat) : List (List Char × List Char) → List (Nat × Nat × List Char)
  | [] => []
  | (ds, b) :: rest =>
    (pos, pos + (107 + ds.length), ds) ::
      expectedMatches (pos + (107 + ds.length) + b.length) rest

theorem mkDoc_length (ds b : List Char) (rest : List (List Char × List Char)) :
    (mkDoc ((ds, b) :: rest)).length
      = (107 + ds.length) + (b.length + (mkDoc rest).length) := by
  rw [mkDoc]
  simp [pageMarker_length]

/-- The pattern-1 scan of a well-formed document returns exactly its
markers. -/
theorem scanAux_mkDoc :
    ∀ (ps : List (List Char × List Char)) (fuel pos : Nat),
      (∀ pr ∈ ps, pr.1 ≠ [] ∧ (∀ c ∈ pr.1, c.isDigit = true) ∧ pr.2 ≠ [] ∧ '=' ∉ pr.2) →
      (mkDoc ps).length ≤ fuel →
      scanAux matchPageEq fuel pos (mkDoc ps) = expectedMatches pos ps := by
  intro ps
  induction ps with
  | nil =>
    intro fuel pos _ _
    rw [mkDoc, expectedMatches]
    exact scanAux_nil _ _ _
  | cons pr rest ih =>
    obtain ⟨ds, b⟩ := pr
    intro fuel pos hwf hfuel
    obtain ⟨hds, hdig, hb, hbe⟩ := hwf (ds, b) (List.mem_cons_self _ _)
    have hwfrest : ∀ q ∈ rest, q.1 ≠ [] ∧ (∀ c ∈ q.1, c.isDigit = true) ∧ q.2 ≠ [] ∧ '=' ∉ q.2 :=
      fun q hq => hwf q (List.mem_cons_of_mem _ hq)
    rw [mkDoc_length] at hfuel
    obtain ⟨fuel', rfl⟩ : ∃ f', fuel = f' + 1 := ⟨fuel - 1, by omega⟩
    have hne : pageMarker ds ++ (b ++ mkDoc rest) ≠ [] := by
      simp [pageMarker]
    rw [mkDoc, scanAux_step matchPageEq _ fuel' pos (107 + ds.length) ds hne
      (matchPageEq_at_marker ds b (mkDoc rest) hds hdig hb hbe) (by omega)]
    have hdrop : (pageMarker ds ++ (b ++ mkDoc rest)).drop (107 + ds.length)
        = b ++ mkDoc rest := by
      rw [← pageMarker_length ds]
      exact List.drop_left _ _
    rw [hdrop]
    have hsplit : fuel' = b.length + (fuel' - b.length) := by omega
    rw [hsplit, scanAux_skip_noEq b (mkDoc rest) _ _ hbe,
      ih (fuel' - b.length) (pos + (107 + ds.length) + b.length) hwfrest (by omega)]
    rw [expectedMatches]

/-- The full scan of a well-formed document. -/
theorem scanAll_mkDoc (ps : List (List Char × List Char))
    (hwf : ∀ pr ∈ ps, pr.1 ≠ [] ∧ (∀ c ∈ pr.1, c.isDigit = true) ∧ pr.2 ≠ [] ∧ '=' ∉ pr.2) :
    scanAll matchPageEq (mkDoc ps) = expectedMatches 0 ps :=
  scanAux_mkDoc ps (mkDoc ps).length 0 hwf (le_refl _)


/-- The boundary records the scan of a well-formed document induces: page
number from the digits, span from marker end to next marker start (end of
document for the last marker). -/
def expectedRecs (pos len : Nat) : List (List Char × List Char) → List (Nat × Nat × Nat)
  | [] => []
  | (ds, b) :: rest =>
    (digitsToNat ds, pos + (107 + ds.length),
      if rest.isEmpty then len else pos + (107 + ds.length) + b.length) ::
      expectedRecs (pos + (107 + ds.length) + b.length) len rest

theorem pageRecords_expectedMatches :
    ∀ (ps : List (List Char × List Char)) (pos len : Nat),
      pageRecords len (expectedMatches pos ps) = expectedRecs pos len ps := by
  intro ps
  induction ps with
  | nil => intro pos len; rfl
  | cons pr rest ih =>
    obtain ⟨ds, b⟩ := pr
    intro pos len
    cases rest with
    | nil => rfl
    | cons pr2 rest2 =>
      obtain ⟨ds2, b2⟩ := pr2
      rw [expectedMatches, expectedMatches, pageRecords, expectedRecs]
      rw [← expectedMatches]
      rw [ih _ len]
      simp

theorem expectedRecs_keys :
    ∀ (ps : List (List Char × List Char)) (pos len : Nat),
      (expectedRecs pos len ps).map (fun r => r.1) = ps.map (fun pr => digitsToNat pr.1) := by
  intro ps
  induction ps with
  | nil => intro pos len; rfl
  | cons pr rest ih =>
    obtain ⟨ds, b⟩ := pr
    intro pos len
    rw [expectedRecs, List.map_cons, List.map_cons, ih]

theorem lookupB_eq_none_iff (b : List (Nat × Nat × Nat)) (p : Nat) :
    lookupB b p = none ↔ p ∉ b.map (fun r => r.1) := by
  induction b with
  | nil => simp [lookupB]
  | cons r rs ih =>
    rw [lookupB_cons]
    by_cases hr : r.1 = p
    · simp [hr]
    · simp only [List.map_cons, List.mem_cons, if_neg hr, ih]
      constructor
      · intro h hmem
        rcases hmem with h2 | h2
        · exact hr h2.symm
        · exact h h2
      · intro h hmem
        exact h (Or.inr hmem)

theorem foldl_insertBoundary_fresh :
    ∀ (l acc : List (Nat × Nat × Nat)),
      (acc.map (fun r => r.1) ++ l.map (fun r => r.1)).Nodup →
      l.foldl insertBoundary acc = acc ++ l := by
  intro l
  induction l with
  | nil => intro acc _; simp
  | cons r rest ih =>
    intro acc hnd
    rw [List.foldl_cons]
    have hnone : lookupB acc r.1 = none := by
      rw [lookupB_eq_none_iff]
      intro hmem
      exact (List.nodup_append.mp hnd).2.2 hmem (by simp)
    rw [show insertBoundary acc r = acc ++ [r] by unfold insertBoundary; rw [hnone]]
    rw [ih (acc ++ [r]) ?_]
    · simp
    · simp only [List.map_append, List.map_cons, List.map_nil] at hnd ⊢
      rw [List.append_assoc, List.singleton_append]
      exact hnd

theorem expectedRecs_start_lb :
    ∀ (ps : List (List Char × List Char)) (pos len : Nat),
      ∀ r ∈ expectedRecs pos len ps, pos + 107 ≤ r.2.1 := by
  intro ps
  induction ps with
  | nil => intro pos len r hr; simp [expectedRecs] at hr
  | cons pr rest ih =>
    obtain ⟨ds, b⟩ := pr
    intro pos len r hr
    rw [expectedRecs] at hr
    rcases List.mem_cons.mp hr with h | h
    · subst h
      simp only []
      omega
    · have := ih (pos + (107 + ds.length) + b.length) len r h
      omega

theorem expectedRecs_sorted :
    ∀ (ps : List (List Char × List Char)) (pos len : Nat),
      List.Sorted (fun x y : Nat × Nat × Nat => x.2.1 ≤ y.2.1) (expectedRecs pos len ps) := by
  intro ps
  induction ps with
  | nil => intro pos len; simp [expectedRecs]
  | cons pr rest ih =>
    obtain ⟨ds, b⟩ := pr
    intro pos len
    rw [expectedRecs]
    rw [List.sorted_cons]
    refine ⟨?_, ih _ len⟩
    intro r hr
    have := expectedRecs_start_lb rest (pos + (107 + ds.length) + b.length) len r hr
    simp only []
    omega

theorem foldl_clip_id :
    ∀ (z : List ((Nat × Nat × Nat) × (Nat × Nat × Nat))) (b : List (Nat × Nat × Nat)),
      (∀ pr ∈ z, pr.1.2.2 ≤ pr.2.2.1) →
      z.foldl (fun acc pr =>
        if pr.2.2.1 < pr.1.2.2 then updateB acc pr.1.1 (pr.1.2.1, pr.2.2.1) else acc) b = b := by
  intro z
  induction z with
  | nil => intro b _; rfl
  | cons x xs ih =>
    intro b h
    rw [List.foldl_cons, if_neg (by have := h x (List.mem_cons_self _ _); omega)]
    exact ih b (fun q hq => h q (List.mem_cons_of_mem _ hq))

theorem expectedRecs_chain :
    ∀ (ps : List (List Char × List Char)) (pos len : Nat),
      ∀ pr ∈ (expectedRecs pos len ps).zip (expectedRecs pos len ps).tail,
        pr.1.2.2 ≤ pr.2.2.1 := by
  intro ps
  induction ps with
  | nil => intro pos len pr hpr; simp [expectedRecs] at hpr
  | cons p0 rest ih =>
    obtain ⟨ds, b⟩ := p0
    intro pos len pr hpr
    cases rest with
    | nil =>
      rw [expectedRecs, expectedRecs] at hpr
      simp at hpr
    | cons p1 rest2 =>
      obtain ⟨ds2, b2⟩ := p1
      rw [expectedRecs, expectedRecs, List.tail_cons, List.zip_cons_cons] at hpr
      rcases List.mem_cons.mp hpr with h | h
      · subst h
        simp only [List.isEmpty_cons, Bool.false_eq_true, if_false]
        omega
      · have hh : pr ∈ (expectedRecs (pos + (107 + ds.length) + b.length) len
            ((ds2, b2) :: rest2)).zip
            (expectedRecs (pos + (107 + ds.length) + b.length) len ((ds2, b2) :: rest2)).tail := by
          rw [expectedRecs, List.tail_cons]
          exact h
        exact ih (pos + (107 + ds.length) + b.length) len pr hh

theorem expectedRecs_slices (D : List Char) :
    ∀ (ps : List (List Char × List Char)) (pos : Nat),
      List.drop pos D = mkDoc ps →
      (expectedRecs pos D.length ps).map (fun r => pySlice D r.2.1 r.2.2)
        = ps.map Prod.snd := by
  intro ps
  induction ps with
  | nil => intro pos _; rfl
  | cons pr rest ih =>
    obtain ⟨ds, b⟩ := pr
    intro pos hdropD
    have hdropk : List.drop (pos + (107 + ds.length)) D = b ++ mkDoc rest := by
      rw [← List.drop_drop, hdropD, mkDoc, ← pageMarker_length ds]
      exact List.drop_left _ _
    have hdropnext : List.drop (pos + (107 + ds.length) + b.length) D = mkDoc rest := by
      rw [← List.drop_drop, hdropk]
      exact List.drop_left _ _
    rw [expectedRecs, List.map_cons, ih _ hdropnext, List.map_cons]
    congr 1
    cases rest with
    | nil =>
      simp only [List.isEmpty_nil]
      rw [if_pos trivial]
      unfold pySlice
      rw [hdropk]
      have hblen : D.length - (pos + (107 + ds.length)) = b.length := by
        have := congrArg List.length hdropk
        rw [List.length_drop] at this
        rw [mkDoc] at this
        simp at this
        omega
      rw [hblen, mkDoc, List.append_nil, List.take_length]
    | cons p1 rest2 =>
      simp only [List.isEmpty_cons]
      rw [if_neg (by simp)]
      unfold pySlice
      rw [hdropk]
      rw [show pos + (107 + ds.length) + b.length - (pos + (107 + ds.length)) = b.length by omega]
      exact List.take_left _ _

/-- The boundary dictionary of a well-formed document is exactly the list
of marker-delimited spans: page numbers from the digits, spans from marker
end to next marker start. -/
theorem qc_boundaries_expected (ps : List (List Char × List Char))
    (hwf : ∀ pr ∈ ps, pr.1 ≠ [] ∧ (∀ c ∈ pr.1, c.isDigit = true) ∧ pr.2 ≠ [] ∧ '=' ∉ pr.2)
    (hnodup : (ps.map (fun pr => digitsToNat pr.1)).Nodup)
    (hne : ps ≠ []) :
    calculate_page_boundaries (mkDoc ps) = expectedRecs 0 (mkDoc ps).length ps := by
  have hscan := scanAll_mkDoc ps hwf
  have hB : (expectedMatches 0 ps).isEmpty = false := by
    cases ps with
    | nil => exact absurd rfl hne
    | cons pr rest =>
      obtain ⟨ds, b⟩ := pr
      rw [expectedMatches]
      rfl
  have hfold : (pageRecords (mkDoc ps).length (expectedMatches 0 ps)).foldl insertBoundary []
      = expectedRecs 0 (mkDoc ps).length ps := by
    rw [pageRecords_expectedMatches ps 0 (mkDoc ps).length]
    rw [foldl_insertBoundary_fresh _ [] (by
      rw [List.map_nil, List.nil_append, expectedRecs_keys]
      exact hnodup)]
    rw [List.nil_append]
  have hsorted : sortByStart (expectedRecs 0 (mkDoc ps).length ps)
      = expectedRecs 0 (mkDoc ps).length ps := by
    unfold sortByStart
    exact List.Sorted.insertionSort_eq (expectedRecs_sorted ps 0 (mkDoc ps).length)
  unfold calculate_page_boundaries qc_marker_matches
  simp only [hscan, hB, Bool.not_false, if_true, Bool.false_eq_true, if_false, hfold, hsorted]
  unfold clipOverlaps
  exact foldl_clip_id _ _ (expectedRecs_chain ps 0 (mkDoc ps).length)

/-- C3 (amended). On a well-formed document — alternating canonical page
markers and non-empty, `=`-free bodies, with pairwise distinct page
numbers — splitting in `_calculate_page_boundaries` is deterministic (the
embedding is a pure function) and records exactly one span per marker,
running from the marker end to the next marker start; concatenating the
recorded spans in order reconstructs the input minus the marker text.
(The encova extractor strips surrounding whitespace from each page, so
exact reconstruction fails there; see the counterexample.) -/
theorem page_split_lossless (ps : List (List Char × List Char))
    (hwf : ∀ pr ∈ ps, pr.1 ≠ [] ∧ (∀ c ∈ pr.1, c.isDigit = true) ∧ pr.2 ≠ [] ∧ '=' ∉ pr.2)
    (hnodup : (ps.map (fun pr => digitsToNat pr.1)).Nodup)
    (hne : ps ≠ []) :
    calculate_page_boundaries (mkDoc ps) = expectedRecs 0 (mkDoc ps).length ps ∧
    ((calculate_page_boundaries (mkDoc ps)).map
      (fun r => pySlice (mkDoc ps) r.2.1 r.2.2)).flatten = (ps.map Prod.snd).flatten := by
  have h1 := qc_boundaries_expected ps hwf hnodup hne
  refine ⟨h1, ?_⟩
  rw [h1, expectedRecs_slices (mkDoc ps) ps 0 (by simp)]

set_option maxRecDepth 12000 in
/-- Witness for C3 (amended): a two-page well-formed document whose bodies
concatenate back from the recorded spans. -/
theorem page_split_lossless_witness :
    ((calculate_page_boundaries (mkDoc [(['1'], "\nhello\n".data), (['2'], "\nworld\n".data)])).map
      (fun r => pySlice (mkDoc [(['1'], "\nhello\n".data), (['2'], "\nworld\n".data)]) r.2.1 r.2.2)).flatten
      = "\nhello\n\nworld\n".data := by
  have h := page_split_lossless [(['1'], "\nhello\n".data), (['2'], "\nworld\n".data)]
    (by decide) (by decide) (by decide)
  rw [h.2]
  decide

/-- A one-marker document whose body is newline-padded. -/
def encovaStripDoc : List Char := pageMarker "1".data ++ "\nhello\n".data

set_option maxRecDepth 12000 in
/-- Counterexample to C3. `extract_pages_from_content` strips whitespace
around each page text: on a document that is one marker followed by the
body newline-hello-newline, the only recorded page text is "hello", so
concatenating recorded page texts gives "hello" and not the input minus
the marker text (which is the body itself, whichever of its surrounding
newlines one counts as part of the marker lines) — the padding newlines
are lost. -/
theorem extract_pages_strips_page_whitespace :
    extract_pages_from_content encovaStripDoc = [(1, "hello".data)] ∧
    encovaStripDoc = pageMarker "1".data ++ "\nhello\n".data ∧
    ("hello".data ≠ "\nhello\n".data) ∧ ("hello".data ≠ "hello\n".data) := by
  refine ⟨by decide, rfl, by decide, by decide⟩

end Ocr
